import Mathlib

/-!
Verification of the document segmentation engine and budget-aware
summarization orchestrator of the Scientific-paper-summarizer repository.

The Python source (`src/utils/text_processor.py`,
`src/summarizers/scientific_summarizer.py`) is shallowly embedded below.
Strings are modelled as `String` / `List Char`; Python regular expressions
over the concrete patterns appearing in the source are hand-compiled into
character-list functions (each accompanied by a comment tracing the
compilation); Python `float` arithmetic on the literals `0.6`, `0.4`,
`0.8`, `0.85` composed with `int()` truncation is modelled as exact
rational arithmetic with `Int.floor` (for the integer operand ranges in
question the double rounding of these products never crosses an integer
boundary differently from the exact rational value); `try/except` around
the external generation capability is modelled by passing the capability
as a function into `Except String`.  Character classes (`\s`, `\w`, `\d`)
are modelled over their ASCII portions, which cover all inputs considered
here.
-/

namespace SciSum

/-- ASCII whitespace, the ASCII part of Python's `\s` / `str.strip()` set. -/
def pySpace (c : Char) : Bool :=
  c = ' ' || c = '\t' || c = '\n' || c = '\r' || c = '\x0b' || c = '\x0c'

/-- ASCII part of Python's `\w` class (`[A-Za-z0-9_]`). -/
def isWordChar (c : Char) : Bool :=
  ('a' ≤ c && c ≤ 'z') || ('A' ≤ c && c ≤ 'Z') || ('0' ≤ c && c ≤ '9') || c = '_'

/-- Python's `\d` over ASCII: `[0-9]`. -/
def isDigitChar (c : Char) : Bool :=
  '0' ≤ c && c ≤ '9'

/-- Scanner for `re.findall(r'\S+', text)`: `acc` holds the current
(reversed) run of non-whitespace characters. -/
def splitTokensGo : List Char → List Char → List (List Char)
  | [], [] => []
  | [], acc => [acc.reverse]
  | c :: cs, acc =>
    if pySpace c then
      match acc with
      | [] => splitTokensGo cs []
      | _ :: _ => acc.reverse :: splitTokensGo cs []
    else splitTokensGo cs (c :: acc)

/-- The `re.findall(r'\S+', text)`: the maximal runs of non-whitespace characters. -/
def splitTokens (cs : List Char) : List (List Char) := splitTokensGo cs []

/-- Scanner counting maximal `\w`-runs; the flag records whether the previous
character was a word character. -/
def countWordRunsGo : List Char → Bool → Nat
  | [], _ => 0
  | c :: cs, inw =>
    if isWordChar c then
      if inw then countWordRunsGo cs true else 1 + countWordRunsGo cs true
    else countWordRunsGo cs false

/-- The `len(re.findall(r'\b\w+\b', text))`: the number of maximal `\w`-runs. -/
def countWordRuns (cs : List Char) : Nat := countWordRunsGo cs false

/-- Source `count_words` (`text_processor.py`): `len(re.findall(r'\b\w+\b', text))`. -/
def count_words (s : String) : Nat := countWordRuns s.toList

/-- The `' '.join(words)` on character lists. -/
def joinSpace : List (List Char) → List Char
  | [] => []
  | [t] => t
  | t :: ts => t ++ ' ' :: joinSpace ts

/-- Source `truncate_to_words` (`text_processor.py`):
`words = re.findall(r'\S+', text); return text if len(words) <= max_words
else ' '.join(words[:max_words]) + '...'`. -/
def truncate_to_words (s : String) (maxWords : Nat) : String :=
  let words := splitTokens s.toList
  if words.length ≤ maxWords then s
  else ⟨joinSpace (words.take maxWords) ++ ['.', '.', '.']⟩

/-! ### Python string primitives used by the orchestrator -/

/-- Remove trailing whitespace (the tail half of Python `str.strip()`). -/
def dropTrailingSpace (cs : List Char) : List Char :=
  (cs.reverse.dropWhile pySpace).reverse

/-- Python `str.strip()` on character lists. -/
def stripChars (cs : List Char) : List Char :=
  dropTrailingSpace (cs.dropWhile pySpace)

/-- Python `str.strip()`. -/
def pyStrip (s : String) : String := ⟨stripChars s.toList⟩

/-- Python `a or b` for strings: `b` when `a` is empty (falsy), else `a`. -/
def pyStrOr (a b : String) : String := if a = "" then b else a

/-- Python `s.lower()` (ASCII). -/
def lowerStr (s : String) : String := ⟨s.toList.map Char.toLower⟩

/-- Python `s.upper()` (ASCII). -/
def upperStr (s : String) : String := ⟨s.toList.map Char.toUpper⟩

/-- Substring containment: Python `pat in hay`. -/
def containsSub (pat : List Char) : List Char → Bool
  | [] => pat.isEmpty
  | c :: cs => pat.isPrefixOf (c :: cs) || containsSub pat cs

/-- Python `pat in hay` on strings. -/
def strContains (hay pat : String) : Bool := containsSub pat.toList hay.toList

/-- A character of the leading list-marker set stripped by
`line.lstrip('0123456789.)-• ')` in `_extract_key_findings`. -/
def isListMarker (c : Char) : Bool :=
  isDigitChar c || c = '.' || c = ')' || c = '-' || c = '•' || c = ' '

/-- Python `text.split('\n')` scanner; `acc` is the current (reversed) piece. -/
def splitOnNlGo : List Char → List Char → List (List Char)
  | [], acc => [acc.reverse]
  | c :: cs, acc =>
    if c = '\n' then acc.reverse :: splitOnNlGo cs []
    else splitOnNlGo cs (c :: acc)

/-- Python `text.split('\n')` (keeps empty pieces, as Python does). -/
def splitLines (s : String) : List String :=
  (splitOnNlGo s.toList []).map fun l => ⟨l⟩

/-- One line of `_extract_key_findings` response parsing:
`line = line.strip()` then `line = line.lstrip('0123456789.)-• ')`. -/
def processFindingLine (s : String) : String :=
  ⟨(stripChars s.toList).dropWhile isListMarker⟩

/-- Response parsing of `_extract_key_findings`
(`scientific_summarizer.py`, lines 378-387): split on newlines, strip each
line, strip leading list markers, keep non-empty lines, cap at 5. -/
def parseFindings (findingsText : String) : List String :=
  let findings := ((splitLines findingsText).map processFindingLine).filter
    (fun l => l ≠ "")
  findings.take 5

/-! ### Budget planner (`_summarize_sections`, `_generate_overview`)

Python computes `int(x * 0.6)` on `float`s; for the integer ranges used
here this equals `⌊x * 6/10⌋` over exact rationals, which is how the
multiplications below are modelled. -/

/-- The `total_budget = max(200, effective_max)` (line 174). -/
def totalBudget (effectiveMax : Nat) : Nat := max 200 effectiveMax

/-- The `section_budget_pool = max(100, int(total_budget * 0.6))` (line 175);
`int(x * 0.6)` on a non-negative int `x` is `⌊x * 6/10⌋ = 6*x/10`
(the theorem on the rational-floor form is proved below). -/
def sectionBudgetPool (effectiveMax : Nat) : Nat :=
  max 100 (6 * totalBudget effectiveMax / 10)

/-- The `per_section_words = max(80, int(section_budget_pool / max(1, len(present) or 1)))`
(line 176); `max(1, n or 1)` collapses to `max 1 n`, and `int()` of the
non-negative float quotient is the integer quotient. -/
def perSectionWords (effectiveMax presentCount : Nat) : Nat :=
  max 80 (sectionBudgetPool effectiveMax / max 1 presentCount)

/-- The `overview_target = max(400, int(effective_max * 0.8))` (line 259),
the branch where no section summaries exist. -/
def overviewTargetNoSections (effectiveMax : Nat) : Nat :=
  max 400 (8 * effectiveMax / 10)

/-- The `overview_target = max(200, int(effective_max * 0.4))` (line 281),
the branch where section summaries exist. -/
def overviewTargetWithSections (effectiveMax : Nat) : Nat :=
  max 200 (4 * effectiveMax / 10)

/-- Python 3 `round()` to the nearest integer, halves to even. -/
def pyRound (q : ℚ) : ℤ :=
  if Int.fract q < 1 / 2 then ⌊q⌋
  else if 1 / 2 < Int.fract q then ⌊q⌋ + 1
  else if ⌊q⌋ % 2 = 0 then ⌊q⌋ else ⌊q⌋ + 1

/-- The claim's (spec's) pool formula, `max(100, round(max(200,totalTarget) * 0.6))`. -/
def sectionBudgetPoolSpec (totalTarget : Nat) : ℤ :=
  max 100 (pyRound ((max 200 totalTarget : ℚ) * (6 / 10)))

/-- The claim's (spec's) no-sections overview formula, `round(max(400, totalTarget*0.8))`. -/
def overviewTargetNoSectionsSpec (totalTarget : Nat) : ℤ :=
  pyRound (max 400 ((totalTarget : ℚ) * (8 / 10)))

/-- The claim's (spec's) has-sections overview formula, `round(max(200, totalTarget*0.4))`. -/
def overviewTargetWithSectionsSpec (totalTarget : Nat) : ℤ :=
  pyRound (max 200 ((totalTarget : ℚ) * (4 / 10)))

/-! ### The external generation capability and the orchestrator's phases

`genai` calls inside `try` blocks are modelled by a capability
`Gen : String → Except String String`: `.ok t` is a response with text
`t`, `.error e` is a raised exception whose `str(e)` is `e`. -/

/-- The external generation capability. -/
def Gen := String → Except String String

/-- The `"429" in str(e) or "quota" in str(e).lower()` (lines 236, 315, 391). -/
def is429OrQuota (e : String) : Bool :=
  strContains e "429" || strContains (lowerStr e) "quota"

/-- The common `except` block of the three required phases: an error with a
rate-limit marker is re-raised as `RuntimeError(f"API Rate Limit Exceeded: {e}")`,
anything else with the phase's generic message. -/
def reSignal (genericMsg e : String) : String :=
  if is429OrQuota e then "API Rate Limit Exceeded: " ++ e
  else genericMsg ++ e

/-- A raised condition is the distinguished rate-limit condition iff its
message carries the `API Rate Limit Exceeded` prefix (this is also how the
repository's UI callers classify it). -/
def isRateLimitSignal (m : String) : Bool :=
  "API Rate Limit Exceeded".toList.isPrefixOf m.toList

/-- Python dict `.get` on an insertion-ordered association list. -/
def alistLookup (k : String) (l : List (String × String)) : Option String :=
  (l.find? (fun p => p.1 == k)).map (fun p => p.2)

/-- Python `a or b` with `a` an optional string (`dict.get` result):
falsy (`None` or empty) falls through to `b`. -/
def pyOrOptStr (a : Option String) (b : String) : String :=
  match a with
  | some s => if s = "" then b else s
  | none => b

/-- The `_summarize_chunk` prompt (lines 203-214). -/
def chunkPrompt (text context : String) (targetWords : Nat) : String :=
  "You are an expert at summarizing scientific papers.\n\nContext: This is the "
  ++ context ++ " section of a scientific paper.\n\nText to summarize:\n"
  ++ text
  ++ "\n\nPlease provide a clear, concise summary that captures the essential information. \nFocus on the key points, methods, findings, or conclusions as appropriate for this section.\nUse technical language where necessary but ensure clarity. Limit to about "
  ++ toString targetWords ++ " words.\n\nSummary:"

/-- The `_generate_overview` prompt when no section summaries exist (lines 260-273). -/
def overviewPromptNoSections (context : String) (target : Nat) : String :=
  "You are an expert at summarizing scientific papers.\n\nRead this excerpt from a scientific paper and provide a comprehensive overview (~"
  ++ toString target
  ++ " words) that captures the paper\x27s main contribution, approach, and significance.\n\nPaper Excerpt:\n"
  ++ context
  ++ "\n\nGenerate a cohesive overview that:\n1. States the research question or problem\n2. Describes the methodology in brief\n3. Highlights main findings\n4. Indicates significance or implications\n\nOverview:"

/-- The `_generate_overview` prompt from section summaries (lines 282-295). -/
def overviewPromptWithSections (context : String) (target : Nat) : String :=
  "You are an expert at summarizing scientific papers.\n\nBased on these section summaries from a scientific paper, provide a comprehensive overview (~"
  ++ toString target
  ++ " words) that captures the paper\x27s main contribution, approach, and significance.\n\nSection Summaries:\n"
  ++ context
  ++ "\n\nGenerate a cohesive overview that:\n1. States the research question or problem\n2. Describes the methodology in brief\n3. Highlights main findings\n4. Indicates significance or implications\n\nOverview:"

/-- The `_extract_key_findings` prompt (lines 346-355). -/
def findingsPrompt (relevantText : String) : String :=
  "You are an expert at analyzing scientific papers.\n\nBased on this text from a scientific paper, extract 3-5 key findings or contributions.\n\nText:\n"
  ++ relevantText
  ++ "\n\nProvide the key findings as a numbered list. Each finding should be:\n\nKey Findings:"

/-- The `_expand_summary` prompt (lines 456-469). -/
def expandPrompt (sourceText currentSummary : String) (targetWords : Nat) : String :=
  "You are an expert technical writer.\n\nExpand the following scientific paper summary to approximately "
  ++ toString targetWords
  ++ " words.\nUse the SOURCE TEXT to add missing details (problem statement, assumptions, methodology highlights, key results, limitations, and implications).\nPreserve the markdown structure and keep it factual and non-repetitive.\n\nSOURCE TEXT (use for details):\n"
  ++ truncate_to_words sourceText 2500
  ++ "\n\nCURRENT SUMMARY (to expand):\n"
  ++ currentSummary
  ++ "\n\nWrite the expanded summary now, maintaining the same headings:\n"

/-- The `_summarize_chunk` (lines 192-238): one generation call; the response
text is stripped, with a fixed fallback when falsy; a raised error is
re-signalled through the rate-limit check. -/
def summarize_chunk (gen : Gen) (text context : String) (targetWords : Nat) :
    Except String String :=
  match gen (chunkPrompt text context targetWords) with
  | .ok t => .ok (pyStrOr (pyStrip t) "Summary generation failed.")
  | .error e => .error (reSignal "Section summarization failed: " e)

/-- The `text[:2000] + "..." if len(text) > 2000 else text` (line 256),
and the 3000-character variant from `_extract_key_findings` (line 344). -/
def excerpt (text : String) (n : Nat) : String :=
  if n < text.toList.length then String.mk (text.toList.take n) ++ "..." else text

/-- The `_generate_overview` (lines 240-317). -/
def generate_overview (gen : Gen) (text : String)
    (sectionSummaries : List (String × String)) (effectiveMax : Nat) :
    Except String String :=
  let prompt :=
    if sectionSummaries = [] then
      overviewPromptNoSections (excerpt text 2000) (overviewTargetNoSections effectiveMax)
    else
      overviewPromptWithSections
        (String.intercalate "\n\n"
          (sectionSummaries.map (fun p => upperStr p.1 ++ ":\n" ++ p.2)))
        (overviewTargetWithSections effectiveMax)
  match gen prompt with
  | .ok t => .ok (pyStrOr (pyStrip t) "Overview generation failed.")
  | .error e => .error (reSignal "Overview generation failed: " e)

/-- The `_extract_key_findings` (lines 319-393): builds the relevant context
(`results`/`discussion`/`conclusion` summaries, else all summaries, else
raw text), one generation call, parses the numbered list. -/
def extract_key_findings (gen : Gen) (text : String)
    (sectionSummaries : List (String × String)) : Except String (List String) :=
  let relevant0 := ["results", "discussion", "conclusion"].foldl
    (fun acc sec =>
      match alistLookup sec sectionSummaries with
      | some s => acc ++ "\n\n" ++ s
      | none => acc) ""
  let relevant1 :=
    if relevant0 = "" ∧ sectionSummaries ≠ [] then
      String.intercalate "\n\n" (sectionSummaries.map (fun p => p.2))
    else relevant0
  let relevantText := if relevant1 = "" then excerpt text 3000 else relevant1
  match gen (findingsPrompt relevantText) with
  | .ok t => .ok (parseFindings (pyStrip t))
  | .error e => .error (reSignal "Key findings extraction failed: " e)

/-- The `_expand_summary` (lines 451-486): one best-effort generation call;
a falsy response or any raised error leaves the current summary unchanged. -/
def expand_summary (gen : Gen) (sourceText currentSummary : String)
    (targetWords : Nat) : String :=
  match gen (expandPrompt sourceText currentSummary targetWords) with
  | .ok t => pyStrOr (pyStrip t) currentSummary
  | .error _ => currentSummary

/-- The markdown `parts` assembled by `_compile_full_summary` (lines 414-435). -/
def compiledParts (overview : String) (sectionSummaries : List (String × String))
    (keyFindings : List String) : List String :=
  ["# SCIENTIFIC PAPER SUMMARY\n", "## Overview", overview, "\n## Key Findings"]
  ++ keyFindings.enum.map (fun p => toString (p.1 + 1) ++ ". " ++ p.2)
  ++ (if (alistLookup "methodology" sectionSummaries).isSome ∨
        (alistLookup "methods" sectionSummaries).isSome then
      ["\n## Methodology",
        pyOrOptStr (alistLookup "methodology" sectionSummaries)
          (pyOrOptStr (alistLookup "methods" sectionSummaries) "")]
    else [])
  ++ (match alistLookup "results" sectionSummaries with
      | some s => ["\n## Results", s]
      | none => [])
  ++ (match alistLookup "conclusion" sectionSummaries with
      | some s => ["\n## Conclusions", s]
      | none => [])

/-- The `_compile_full_summary` (lines 395-449): join the parts, run the
best-effort expansion pass when the draft is below `int(target * 0.85)`
words (`= 85*target/100` over the exact rationals), then truncate to
`effective_max` words when `effective_max` is truthy. -/
def compile_full_summary (gen : Gen) (overview : String)
    (sectionSummaries : List (String × String)) (keyFindings : List String)
    (sourceText : String) (effectiveMax : Nat) : String :=
  let full := String.intercalate "\n\n" (compiledParts overview sectionSummaries keyFindings)
  let target := max 200 effectiveMax
  let full2 :=
    if count_words full < 85 * target / 100 then
      let expanded := expand_summary gen sourceText full target
      if expanded ≠ "" then expanded else full
    else full
  if effectiveMax ≠ 0 then truncate_to_words full2 effectiveMax else full2

/-! ### Text normalizer (`clean_text`, `text_processor.py` lines 14-25)

Loop-shaped `re.sub` scans are written with an explicit fuel argument equal
to the input length so that the functions are structurally recursive and
kernel-computable; fuel never runs out on the lengths they are called at. -/

/-- The `text.replace('\r\n', '\n')`. -/
def replaceCRLF : List Char → List Char
  | '\r' :: '\n' :: rest => '\n' :: replaceCRLF rest
  | c :: rest => c :: replaceCRLF rest
  | [] => []

/-- The `text.replace('\r', '\n')`. -/
def replaceCR (cs : List Char) : List Char :=
  cs.map fun c => if c = '\r' then '\n' else c

/-- The suffix after the last `'\n'` of a list, `none` when it has no `'\n'`;
this is where backtracking of `\s*` before the final literal `\n` of the
page-number pattern ends up. -/
def lastNlSplit : List Char → Option (List Char)
  | [] => none
  | c :: rest =>
    match lastNlSplit rest with
    | some r => some r
    | none => if c = '\n' then some rest else none

/-- Matching of `\s*\d+\s*\n` directly after a `'\n'`, for
`re.sub(r'\n\s*\d+\s*\n', '\n', text)`: greedy `\s*`, at least one digit,
then whitespace up to (and including) its last `'\n'`; returns the
remainder after the match. -/
def matchPageAfterNl (rest : List Char) : Option (List Char) :=
  if (rest.dropWhile pySpace).takeWhile isDigitChar = [] then none
  else
    match lastNlSplit (((rest.dropWhile pySpace).dropWhile
        isDigitChar).takeWhile pySpace) with
    | some b =>
      some (b ++ ((rest.dropWhile pySpace).dropWhile isDigitChar).dropWhile pySpace)
    | none => none

/-- The `re.sub(r'\n\s*\d+\s*\n', '\n', text)`: left-to-right non-overlapping
replacement; scanning resumes after each match. -/
def pageSubF : Nat → List Char → List Char
  | 0, cs => cs
  | fuel + 1, cs =>
    match cs with
    | [] => []
    | c :: rest =>
      if c = '\n' then
        match matchPageAfterNl rest with
        | some rest2 => '\n' :: pageSubF fuel rest2
        | none => c :: pageSubF fuel rest
      else c :: pageSubF fuel rest

/-- The `text.replace('ﬁ', 'fi')`. -/
def replaceFi : List Char → List Char
  | 'ﬁ' :: rest => 'f' :: 'i' :: replaceFi rest
  | c :: rest => c :: replaceFi rest
  | [] => []

/-- The `text.replace('ﬂ', 'fl')`. -/
def replaceFl : List Char → List Char
  | 'ﬂ' :: rest => 'f' :: 'l' :: replaceFl rest
  | c :: rest => c :: replaceFl rest
  | [] => []

/-- The `re.sub(r'\n{3,}', '\n\n', text)`: every maximal run of 3 or more
newlines becomes exactly two. -/
def collapseNlF : Nat → List Char → List Char
  | 0, cs => cs
  | fuel + 1, cs =>
    match cs with
    | '\n' :: '\n' :: '\n' :: rest =>
      '\n' :: '\n' :: collapseNlF fuel (rest.dropWhile (fun c => c = '\n'))
    | c :: rest => c :: collapseNlF fuel rest
    | [] => []

/-- Line 17: `text.replace('\r\n', '\n').replace('\r', '\n')`. -/
def normEol (cs : List Char) : List Char := replaceCR (replaceCRLF cs)

/-- Line 19: `re.sub(r'\n\s*\d+\s*\n', '\n', text)`. -/
def pageSub (cs : List Char) : List Char := pageSubF cs.length cs

/-- Line 21: `text.replace('ﬁ', 'fi').replace('ﬂ', 'fl')`. -/
def ligFix (cs : List Char) : List Char := replaceFl (replaceFi cs)

/-- Line 23: `re.sub(r'\n{3,}', '\n\n', text)`. -/
def collapseNl (cs : List Char) : List Char := collapseNlF cs.length cs

/-- Source `clean_text` (`text_processor.py` lines 14-25): normalize line
endings, remove isolated page-number lines, fix OCR ligatures, collapse
3+ blank lines, strip. -/
def cleanChars (cs : List Char) : List Char :=
  stripChars (collapseNl (ligFix (pageSub (normEol cs))))

/-- Source `clean_text` on strings. -/
def clean_text (s : String) : String := ⟨cleanChars s.toList⟩

/-! ### Section detector (`detect_sections`, `text_processor.py` lines 29-111)

The four header regexes of the line scan and the fallback regex are
hand-compiled.  Each keyword fragment of `keyword_map` denotes a finite
set of word alternatives; every header pattern requires the keyword with a
word boundary on each side (`(?:\b|\s|[:\-–—])` after a word character is
exactly `\b`), so keyword matching reduces to boundary-delimited word
occurrence at a given position. -/

/-- The `keyword_map` (lines 32-40): canonical key and the word alternatives
of its regex fragment. -/
def keywordWords : List (String × List String) :=
  [("abstract", ["abstract"]),
   ("introduction", ["introduction"]),
   ("methods", ["method", "methods", "methodology", "algorithm",
     "least squares algorithm", "least-squares algorithm"]),
   ("results", ["result", "results", "numerical results", "experimental results"]),
   ("discussion", ["discussion"]),
   ("conclusion", ["conclusion", "conclusions"]),
   ("references", ["reference", "references"])]

/-- The `keyword_map` with the alternatives as character lists. -/
def keywordChars : List (String × List (List Char)) :=
  keywordWords.map fun p => (p.1, p.2.map String.toList)

/-- The `\b` after a keyword (keywords end in word characters): end of input
or a non-word character. -/
def boundaryAfter : List Char → Bool
  | [] => true
  | c :: _ => !isWordChar c

/-- The `\b` before a keyword given the previous character (keywords start
with word characters): start of input or a non-word character. -/
def boundaryBefore : Option Char → Bool
  | none => true
  | some c => !isWordChar c

/-- Some alternative `w` matches at the head of `cs` with `\b` after it. -/
def anyKwAt (ws : List (List Char)) (cs : List Char) : Bool :=
  ws.any fun w => w.isPrefixOf cs && boundaryAfter (cs.drop w.length)

/-- The `re.search(rf'^.*\b{pattern}\b.*$', lowered)` (the composite header
shape, which subsumes the other three shapes): a boundary-delimited
occurrence at any position. -/
def kwOccursGo (ws : List (List Char)) : Option Char → List Char → Bool
  | prev, [] => boundaryBefore prev && anyKwAt ws []
  | prev, c :: rest =>
    (boundaryBefore prev && anyKwAt ws (c :: rest)) || kwOccursGo ws (some c) rest

/-- The `rf'^#+\s*{pattern}(?:\b|\s|[:\-–—])'`: one or more `#`, optional
whitespace, then the keyword. -/
def matchedMarkdown (ws : List (List Char)) : List Char → Bool
  | '#' :: rest =>
    anyKwAt ws ((rest.dropWhile (fun c => c = '#')).dropWhile pySpace)
  | _ => false

/-- Greedy `(?:\.\d+)*`: consume dot-digit groups; a dot not followed by a
digit stops the loop. -/
def dotGroupsF : Nat → List Char → List Char
  | 0, cs => cs
  | fuel + 1, cs =>
    match cs with
    | '.' :: rest =>
      match rest.takeWhile isDigitChar with
      | [] => cs
      | _ :: _ => dotGroupsF fuel (rest.dropWhile isDigitChar)
    | _ => cs

/-- Greedy `\d+\.?\d*(?:\.\d+)*` starting at the head (present iff the
head is a digit); returns the remainder. -/
def numberingRest (cs : List Char) : Option (List Char) :=
  match cs.takeWhile isDigitChar with
  | [] => none
  | _ :: _ =>
    let r1 := cs.dropWhile isDigitChar
    let r2 := match r1 with
      | '.' :: rest => rest.dropWhile isDigitChar
      | _ => r1
    some (dotGroupsF r2.length r2)

/-- The `rf'^\d+\.?\d*(?:\.\d+)*\s+{pattern}(?:\b|\s|[:\-–—])'`. -/
def matchedNumbered (ws : List (List Char)) (cs : List Char) : Bool :=
  match numberingRest cs with
  | none => false
  | some r =>
    match r.takeWhile pySpace with
    | [] => false
    | _ :: _ => anyKwAt ws (r.dropWhile pySpace)

/-- The `lowered.endswith('.')`. -/
def endsWithDot (cs : List Char) : Bool :=
  match cs.reverse with
  | '.' :: _ => true
  | _ => false

/-- One line of the primary scan for one canonical key (lines 53-78):
skip blank and over-long lines, try the four header shapes, reject
sentence-like matches (ending in `.` with more than 6 words). -/
def lineAccepts (ws : List (List Char)) (line : List Char) : Bool :=
  let raw := stripChars line
  if raw = [] then false
  else if 80 < raw.length then false
  else
    let lowered := raw.map Char.toLower
    let matched := matchedMarkdown ws lowered || matchedNumbered ws lowered ||
      anyKwAt ws lowered || kwOccursGo ws none lowered
    if matched then !(endsWithDot lowered && 6 < (splitTokens lowered).length)
    else false

/-- The per-line character offsets (lines 45-50): cumulative
`len(line) + 1`. -/
def lineOffsetsGo : List (List Char) → Nat → List Nat
  | [], _ => []
  | l :: ls, acc => acc :: lineOffsetsGo ls (acc + l.length + 1)

/-- The primary pass (lines 52-78): for each canonical key, the first
accepted line's offset opens a span ending (for now) at document end. -/
def primarySections (text : List Char) : List (String × Nat × Nat) :=
  let lines := splitOnNlGo text []
  let offsets := lineOffsetsGo lines 0
  keywordChars.filterMap fun p =>
    match List.findIdx? (fun l => lineAccepts p.2 l) lines with
    | some idx => some (p.1, offsets.getD idx 0, text.length)
    | none => none

/-- Stable insertion by span start (`sorted(..., key=lambda kv: kv[1][0])`
is a stable sort). -/
def insertByStart (x : String × Nat × Nat) :
    List (String × Nat × Nat) → List (String × Nat × Nat)
  | [] => [x]
  | y :: ys => if y.2.1 < x.2.1 then y :: insertByStart x ys else x :: y :: ys

/-- Stable sort by span start. -/
def sortByStart : List (String × Nat × Nat) → List (String × Nat × Nat)
  | [] => []
  | x :: xs => insertByStart x (sortByStart xs)

/-- Lines 81-85 and 106-110: in start order, each span's end becomes the
next span's start; the last span keeps its end. -/
def clipEnds : List (String × Nat × Nat) → List (String × Nat × Nat)
  | [] => []
  | [x] => [x]
  | (n, s, _) :: y :: rest => (n, s, y.2.1) :: clipEnds (y :: rest)

/-- The clipped value fetched back for one key of the insertion-ordered
mapping. -/
def clipLookup (clipped : List (String × Nat × Nat)) (p : String × Nat × Nat) :
    String × Nat × Nat :=
  match clipped.find? (fun q => q.1 == p.1) with
  | some q => (p.1, q.2)
  | none => p

/-- The sort-and-clip step applied back onto the insertion-ordered
mapping (`sections[name] = (s, next_s)` mutates the dict in place, so key
order is unchanged and only values are updated). -/
def applyClip (sections : List (String × Nat × Nat)) : List (String × Nat × Nat) :=
  sections.map (clipLookup (clipEnds (sortByStart sections)))

/-- The character class `[A-Za-z0-9 \-–—:]` of the fallback regex. -/
def fbClass (c : Char) : Bool :=
  ('A' ≤ c && c ≤ 'Z') || ('a' ≤ c && c ≤ 'z') || ('0' ≤ c && c ≤ '9') ||
  c = ' ' || c = '-' || c = '–' || c = '—' || c = ':'

/-- After the keyword: `[A-Za-z0-9 \-–—:]{0,40}` then `(?:\n|$)`; the run
of class characters must be at most 40 long and be followed by a newline
or the end (the class excludes `'\n'`, so backtracking cannot rescue a
longer run). -/
def fbTail (cs : List Char) : Bool :=
  let run := cs.takeWhile fbClass
  if run.length ≤ 40 then
    match cs.drop run.length with
    | [] => true
    | c :: _ => c = '\n'
  else false

/-- Some keyword alternative at the head, continued by `fbTail`. -/
def fbKw (ws : List (List Char)) (cs : List Char) : Bool :=
  ws.any fun w => w.isPrefixOf cs && fbTail (cs.drop w.length)

/-- The fallback header body
`(?:\d+\.?\d*(?:\.\d+)*\s+)?{pattern}[A-Za-z0-9 \-–—:]{0,40}(?:\n|$)`
matching at a given position (on the lowered text; `re.IGNORECASE`). -/
def fbMatchAt (ws : List (List Char)) (cs : List Char) : Bool :=
  fbKw ws cs ||
  (match numberingRest cs with
   | none => false
   | some r =>
     match r.takeWhile pySpace with
     | [] => false
     | _ :: _ => fbKw ws (r.dropWhile pySpace))

/-- Scan for the leftmost `(?:^|\n)` anchor position whose following text
matches the fallback header; returns the header start offset. -/
def fallbackScanGo (ws : List (List Char)) : List Char → Nat → Option Nat
  | [], _ => none
  | c :: rest, p =>
    if c = '\n' && fbMatchAt ws rest then some (p + 1)
    else fallbackScanGo ws rest (p + 1)

/-- The `rgx.search(text).start('header')` for the fallback regex (lines
91-104): position 0 via `^`, else after the leftmost suitable newline. -/
def fallbackScan (ws : List (List Char)) (text : List Char) : Option Nat :=
  if fbMatchAt ws text then some 0 else fallbackScanGo ws text 0

/-- Source `detect_sections` (`text_processor.py` lines 29-111): primary
line scan, sort-and-clip, then (when fewer than 2 sections were found)
the fallback whole-text scan followed by a re-clip.  The result is the
insertion-ordered mapping of canonical keys to spans. -/
def detect_sections (s : String) : List (String × Nat × Nat) :=
  let text := s.toList
  let clipped := applyClip (primarySections text)
  if clipped.length < 2 then
    let lowered := text.map Char.toLower
    let extra := keywordChars.filterMap fun p =>
      if (clipped.find? (fun q => q.1 == p.1)).isSome then none
      else
        match fallbackScan p.2 lowered with
        | some q => some (p.1, q, text.length)
        | none => none
    applyClip (clipped ++ extra)
  else clipped

/-- Source `extract_section` (`text_processor.py` lines 114-129):
`text[start:end].strip()` for the detected span of the (lowercased)
section name, `""` when absent. -/
def extract_section (text sectionName : String) : String :=
  match (detect_sections text).find? (fun p => p.1 == lowerStr sectionName) with
  | some p => ⟨stripChars ((text.toList.take p.2.2).drop p.2.1)⟩
  | none => ""

/-! ### Numbered section detector (`detect_numbered_sections`, lines 140-193)

`_NUMBERED_HEADING_RE = r'^(?P<label>\d+(?:\.\d+)*)[\s\.-]+(?P<title>\S.*)$'`.
The initial `\d+` is forcedly maximal; the `(?:\.\d+)*` loop is greedy,
and when the separator-and-title tail fails after the greedy label, the
regex backtracks by dropping the last dot group, whereupon the dot itself
separates and the group's digits start the title (this is the only
backtracking that can succeed). -/

/-- A heading entry of `detect_numbered_sections` (lines 166-171). -/
structure NumEntry where
  label : List Char
  title : List Char
  depth : Nat
  start : Nat
deriving DecidableEq

/-- The separator class `[\s\.-]`. -/
def sepClass (c : Char) : Bool := pySpace c || c = '.' || c = '-'

/-- Greedy `(?:\.\d+)*` collecting the digit groups and the remainder. -/
def dotGroupsListF : Nat → List Char → List (List Char) × List Char
  | 0, cs => ([], cs)
  | fuel + 1, cs =>
    match cs with
    | '.' :: rest =>
      match rest.takeWhile isDigitChar with
      | [] => ([], cs)
      | g =>
        let (gs, r) := dotGroupsListF fuel (rest.dropWhile isDigitChar)
        (g :: gs, r)
    | _ => ([], cs)

/-- The shortest suffix whose head is a non-whitespace character (the
suffix at the last non-whitespace position), `none` when all whitespace;
this is where greedy backtracking of `[\s\.-]+` before `\S` lands when
the separator run reaches the end of the line. -/
def lastSuffixNonWs : List Char → Option (List Char)
  | [] => none
  | c :: rest =>
    match lastSuffixNonWs rest with
    | some t => some t
    | none => if !pySpace c then some (c :: rest) else none

/-- The `[\s\.-]+(?P<title>\S.*)$` at `r`: the title when the tail matches. -/
def sepTitle (r : List Char) : Option (List Char) :=
  match r.takeWhile sepClass with
  | [] => none
  | _ :: run' =>
    match r.drop (r.takeWhile sepClass).length with
    | c :: rest => some (c :: rest)
    | [] => lastSuffixNonWs run'

/-- The `_NUMBERED_HEADING_RE.match(line)`: the (label, title) groups. -/
def numHeadMatch (cs : List Char) : Option (List Char × List Char) :=
  match cs.takeWhile isDigitChar with
  | [] => none
  | ds =>
    let (gs, r) := dotGroupsListF (cs.dropWhile isDigitChar).length
      (cs.dropWhile isDigitChar)
    match sepTitle r with
    | some title => some (ds ++ (gs.map (fun g => '.' :: g)).flatten, title)
    | none =>
      match gs.reverse with
      | [] => none
      | glast :: revInit =>
        some (ds ++ ((revInit.reverse).map (fun g => '.' :: g)).flatten, glast ++ r)

/-- The heading entries of a text (lines 157-171): per line, match the
stripped line, record label, stripped title, depth (dot count + 1) and
the line's character offset. -/
def numberedEntries (text : List Char) : List NumEntry :=
  let lines := splitOnNlGo text []
  let offsets := lineOffsetsGo lines 0
  (lines.zip offsets).filterMap fun p =>
    match numHeadMatch (stripChars p.1) with
    | some lt =>
      some { label := lt.1, title := stripChars lt.2,
             depth := (lt.1.filter (fun c => c = '.')).length + 1,
             start := p.2 }
    | none => none

/-- The end-scan of one span (lines 179-191): skip dotted descendants;
the first other heading with depth at most the span's closes it at its
start; otherwise document end. -/
def spanEnd (label : List Char) (depth textLen : Nat) : List NumEntry → Nat
  | [] => textLen
  | e :: rest =>
    if (label ++ ['.']).isPrefixOf e.label then spanEnd label depth textLen rest
    else if e.depth ≤ depth then e.start
    else spanEnd label depth textLen rest

/-- Python dict assignment `sections[label] = v`: an existing key keeps
its position and gets the new value; a new key is appended. -/
def upsert (k : List Char) (v : Nat × Nat) :
    List (List Char × Nat × Nat) → List (List Char × Nat × Nat)
  | [] => [(k, v)]
  | p :: rest => if p.1 == k then (p.1, v) :: rest else p :: upsert k v rest

/-- The span-building loop of `detect_numbered_sections` (lines 174-192). -/
def spansGo (textLen : Nat) : List NumEntry → List (List Char × Nat × Nat) →
    List (List Char × Nat × Nat)
  | [], acc => acc
  | e :: rest, acc =>
    spansGo textLen rest (upsert e.label (e.start, spanEnd e.label e.depth textLen rest) acc)

/-- Source `detect_numbered_sections` (`text_processor.py` lines 142-193). -/
def detect_numbered_sections (s : String) : List (List Char × Nat × Nat) :=
  spansGo s.toList.length (numberedEntries s.toList) []

/-- The claim's description of a span's end: the start of the first
subsequent heading whose depth is ≤ the span's and whose label does not
begin with the span's label followed by `"."`, or document end. -/
def claimSpanEnd (label : List Char) (depth textLen : Nat) (rest : List NumEntry) : Nat :=
  match rest.find? (fun e => e.depth ≤ depth && !((label ++ ['.']).isPrefixOf e.label)) with
  | some e => e.start
  | none => textLen

/-! ### The orchestrator (`ScientificPaperSummarizer.summarize` and helpers) -/

/-- The fixed priority list of `_summarize_sections` (lines 166-170). -/
def prioritySections : List String := ["methods", "methodology", "results"]

/-- The loop of `_summarize_sections` (lines 178-188): each priority
section present in the mapping whose extracted text is longer than 100
characters is summarized; a raised error aborts the loop. -/
def summarizeSectionsGo (gen : Gen) (text : String)
    (sections : List (String × Nat × Nat)) (perWords : Nat) :
    List String → List (String × String) → Except String (List (String × String))
  | [], acc => .ok acc
  | name :: rest, acc =>
    if (sections.find? (fun p => p.1 == name)).isSome then
      let sectionText := extract_section text name
      if sectionText ≠ "" ∧ 100 < sectionText.toList.length then
        match summarize_chunk gen sectionText name perWords with
        | .ok s => summarizeSectionsGo gen text sections perWords rest (acc ++ [(name, s)])
        | .error e => .error e
      else summarizeSectionsGo gen text sections perWords rest acc
    else summarizeSectionsGo gen text sections perWords rest acc

/-- The `_summarize_sections` (lines 152-190). -/
def summarize_sections (gen : Gen) (text : String)
    (sections : List (String × Nat × Nat)) (effectiveMax : Nat) :
    Except String (List (String × String)) :=
  let present := prioritySections.filter
    (fun s => (sections.find? (fun p => p.1 == s)).isSome)
  summarizeSectionsGo gen text sections
    (perSectionWords effectiveMax present.length) prioritySections []

/-- Python `a or b` on two optional strings (`dict.get` chain): a `None`
or empty `a` falls through to `b`. -/
def pyOrOpt (a b : Option String) : Option String :=
  match a with
  | some s => if s = "" then b else some s
  | none => b

/-- The `Summary` dataclass (`scientific_summarizer.py` lines 23-33). -/
structure Summary where
  title : String
  overview : String
  key_findings : List String
  methodology : Option String
  results : Option String
  conclusions : Option String
  full_summary : String
  word_count : Nat

/-- The `ScientificPaperSummarizer.summarize` (lines 87-150) with the
resolved word target (`summary_max_words or settings.summary_max_words`)
passed in: clean, detect, summarize sections, overview, key findings,
compile; any raised error in the required phases propagates. -/
def summarize (gen : Gen) (rawText title : String) (effectiveMax : Nat) :
    Except String Summary :=
  let text := clean_text rawText
  let sections := detect_sections text
  match summarize_sections gen text sections effectiveMax with
  | .error e => .error e
  | .ok sectionSummaries =>
    match generate_overview gen text sectionSummaries effectiveMax with
    | .error e => .error e
    | .ok overview =>
      match extract_key_findings gen text sectionSummaries with
      | .error e => .error e
      | .ok keyFindings =>
        let fullSummary := compile_full_summary gen overview sectionSummaries
          keyFindings text effectiveMax
        .ok { title := title, overview := overview, key_findings := keyFindings,
              methodology := pyOrOpt (alistLookup "methods" sectionSummaries)
                (alistLookup "methodology" sectionSummaries),
              results := alistLookup "results" sectionSummaries,
              conclusions := alistLookup "conclusion" sectionSummaries,
              full_summary := fullSummary,
              word_count := count_words fullSummary }

theorem splitTokensGo_sound (cs : List Char) :
    ∀ (acc : List Char), (∀ c ∈ acc, pySpace c = false) →
      ∀ t ∈ splitTokensGo cs acc, t ≠ [] ∧ ∀ c ∈ t, pySpace c = false := by
  induction cs with
  | nil =>
    intro acc hacc t ht
    cases acc with
    | nil => simp [splitTokensGo] at ht
    | cons a as =>
      simp only [splitTokensGo, List.mem_singleton] at ht
      subst ht
      refine ⟨by simp, ?_⟩
      intro c hc
      exact hacc c (List.mem_reverse.mp hc)
  | cons c cs ih =>
    intro acc hacc t ht
    by_cases h : pySpace c
    · cases acc with
      | nil =>
        simp only [splitTokensGo, h, if_true] at ht
        exact ih [] (by simp) t ht
      | cons a as =>
        simp only [splitTokensGo, h, if_true] at ht
        rcases List.mem_cons.mp ht with h1 | h2
        · subst h1
          refine ⟨by simp, ?_⟩
          intro d hd
          exact hacc d (List.mem_reverse.mp hd)
        · exact ih [] (by simp) t h2
    · simp only [splitTokensGo, h, if_false] at ht
      refine ih (c :: acc) ?_ t ht
      intro d hd
      rcases List.mem_cons.mp hd with h1 | h2
      · subst h1; exact Bool.of_not_eq_true h
      · exact hacc d h2

theorem splitTokensGo_append_nonspace (t : List Char)
    (ht : ∀ c ∈ t, pySpace c = false) :
    ∀ (xs acc : List Char),
      splitTokensGo (t ++ xs) acc = splitTokensGo xs (t.reverse ++ acc) := by
  induction t with
  | nil => intro xs acc; simp
  | cons c t ih =>
    intro xs acc
    have hc : pySpace c = false := ht c (by simp)
    have hstep : splitTokensGo (c :: t ++ xs) acc = splitTokensGo (t ++ xs) (c :: acc) := by
      simp [splitTokensGo, hc]
    rw [List.cons_append] at hstep ⊢
    rw [hstep, ih (fun d hd => ht d (by simp [hd])) xs (c :: acc)]
    simp

theorem splitTokens_nonempty_all_nonspace (t : List Char) (hne : t ≠ [])
    (ht : ∀ c ∈ t, pySpace c = false) : splitTokens t = [t] := by
  have h := splitTokensGo_append_nonspace t ht [] []
  simp only [List.append_nil] at h
  unfold splitTokens
  rw [h]
  cases ht' : t.reverse with
  | nil => exact absurd (by simpa using ht') hne
  | cons a as =>
    simp only [splitTokensGo]
    rw [← ht']
    simp

theorem splitTokens_join_dots (ts : List (List Char)) (hne : ts ≠ [])
    (h : ∀ t ∈ ts, t ≠ [] ∧ ∀ c ∈ t, pySpace c = false) :
    (splitTokens (joinSpace ts ++ ['.', '.', '.'])).length = ts.length := by
  induction ts with
  | nil => exact absurd rfl hne
  | cons t ts ih =>
    cases ts with
    | nil =>
      have hprop := h t (by simp)
      have : splitTokens (joinSpace [t] ++ ['.', '.', '.']) = [t ++ ['.', '.', '.']] := by
        apply splitTokens_nonempty_all_nonspace
        · simp
        · intro c hc
          have hc' : c ∈ t ∨ c = '.' := by simpa [joinSpace] using hc
          rcases hc' with h1 | h2
          · exact hprop.2 c h1
          · simp [h2, pySpace]
      rw [this]
      simp
    | cons t2 ts2 =>
      have hprop := h t (by simp)
      have hjoin : joinSpace (t :: t2 :: ts2) = t ++ ' ' :: joinSpace (t2 :: ts2) := rfl
      unfold splitTokens
      rw [hjoin, List.append_assoc, List.cons_append,
        splitTokensGo_append_nonspace t hprop.2]
      have hsp : pySpace ' ' = true := by decide
      simp only [List.append_nil, splitTokensGo, hsp, if_true]
      cases htr : t.reverse with
      | nil => exact absurd (by simpa using htr) hprop.1
      | cons a as =>
        simp only [List.length_cons]
        have hih := ih (by simp) (fun u hu => h u (by simp [hu]))
        unfold splitTokens at hih
        simp only [List.length_cons] at hih
        omega

/-- C2 (amended): `truncate_to_words s N` is a no-op whenever the number of
whitespace-delimited (`\S+`) tokens of `s` is at most `N`, and the result
always has at most `max N 1` whitespace-delimited tokens (the ellipsis is
glued onto the final kept token). -/
theorem C2_truncation_law (s : String) (N : Nat) :
    ((splitTokens s.toList).length ≤ N → truncate_to_words s N = s) ∧
    (splitTokens (truncate_to_words s N).toList).length ≤ max N 1 := by
  by_cases h : (splitTokens s.toList).length ≤ N
  · have hres : truncate_to_words s N = s := by
      simp only [truncate_to_words]
      rw [if_pos h]
    rw [hres]
    exact ⟨fun _ => rfl, le_trans h (le_max_left _ _)⟩
  · have hres : truncate_to_words s N =
        ⟨joinSpace ((splitTokens s.toList).take N) ++ ['.', '.', '.']⟩ := by
      simp only [truncate_to_words]
      rw [if_neg h]
    rw [hres]
    refine ⟨fun h' => absurd h' h, ?_⟩
    have hdata : (String.mk (joinSpace ((splitTokens s.toList).take N) ++
        ['.', '.', '.'])).toList =
        joinSpace ((splitTokens s.toList).take N) ++ ['.', '.', '.'] := rfl
    rw [hdata]
    by_cases hN0 : N = 0
    · subst hN0
      simp only [List.take_zero, joinSpace, List.nil_append]
      decide
    · have htake : (splitTokens s.toList).take N ≠ [] := by
        have h1 : 0 < ((splitTokens s.toList).take N).length := by
          rw [List.length_take]
          omega
        exact List.ne_nil_of_length_pos h1
      rw [splitTokens_join_dots _ htake
        (fun t ht => splitTokensGo_sound s.toList [] (by simp) t (List.take_subset _ _ ht))]
      rw [List.length_take]
      omega

/-- C2 witness: the amended law applied to a concrete no-op input. -/
theorem C2_truncation_law_witness :
    truncate_to_words "a b c" 5 = "a b c" ∧
    (splitTokens (truncate_to_words "a b c" 5).toList).length ≤ max 5 1 :=
  ⟨(C2_truncation_law "a b c" 5).1 (by decide), (C2_truncation_law "a b c" 5).2⟩

/-- C2 counterexample: the claim's no-op condition uses `count_words`
(`\w+` runs), but the code tokenizes with `\S+`; for `"- - -"` and `N = 2`
we have `count_words = 0 ≤ 2` yet the function truncates. -/
theorem C2_claim_counterexample :
    count_words "- - -" ≤ 2 ∧ truncate_to_words "- - -" 2 ≠ "- - -" := by
  decide

/-- C8: the key-finding extractor splits the generation response on
newlines, strips leading list markers, discards empty lines, and returns
at most 5 entries in original line order (a sublist of the processed
lines); on `"1. Finding A\n2) Finding B\n- Finding C"` it returns exactly
`["Finding A", "Finding B", "Finding C"]`. -/
theorem C8_key_finding_parsing (t : String) :
    (parseFindings t).length ≤ 5 ∧
    (parseFindings t).Sublist ((splitLines t).map processFindingLine) ∧
    parseFindings "1. Finding A\n2) Finding B\n- Finding C" =
      ["Finding A", "Finding B", "Finding C"] := by
  refine ⟨List.length_take_le _ _, ?_, by decide⟩
  exact (List.take_sublist _ _).trans (List.filter_sublist _)

theorem intFloor_natMul_div (a num den : Nat) :
    Int.toNat ⌊(a : ℚ) * ((num : ℚ) / ((den : ℕ) : ℚ))⌋ = (num * a) / den := by
  have h1 : (a : ℚ) * ((num : ℚ) / ((den : ℕ) : ℚ)) =
      ((num * a : ℕ) : ℚ) / ((den : ℕ) : ℚ) := by
    push_cast
    ring
  rw [h1, Rat.floor_natCast_div_natCast, ← Int.ofNat_ediv, Int.toNat_natCast]

theorem intFloor_natDiv (a b : Nat) :
    Int.toNat ⌊((a : ℕ) : ℚ) / ((b : ℕ) : ℚ)⌋ = a / b := by
  rw [Rat.floor_natCast_div_natCast, ← Int.ofNat_ediv, Int.toNat_natCast]

/-- C4 counterexample: at `totalTarget = 203` the code truncates
`203 * 0.6 = 121.8` to `121`, while the claim's `round` formula gives
`122`; the per-section target then differs as well (`121` vs `122` with
one present section). -/
theorem C4_budget_formula_counterexample :
    (sectionBudgetPool 203 : ℤ) ≠ sectionBudgetPoolSpec 203 ∧
    sectionBudgetPool 203 = 121 ∧ sectionBudgetPoolSpec 203 = 122 := by
  have h1 : sectionBudgetPool 203 = 121 := by decide
  have h2 : sectionBudgetPoolSpec 203 = 122 := by
    rw [sectionBudgetPoolSpec, pyRound]
    norm_num [Int.fract]
  exact ⟨by rw [h1, h2]; decide, h1, h2⟩

/-- C4 (amended): the planned budget values equal the spec formulas with
`round` replaced by truncation toward zero (= `⌊·⌋` on these non-negative
values) applied before the outer `max`:
`sectionBudgetPool = max(100, ⌊max(200,totalTarget)*0.6⌋)`;
`perSectionTarget = max(80, ⌊sectionBudgetPool / max(1, presentSectionCount)⌋)`;
`overviewTarget = max(400, ⌊totalTarget*0.8⌋)` without sections, else
`max(200, ⌊totalTarget*0.4⌋)`. -/
theorem C4_budget_formulas (totalTarget presentCount : Nat) :
    sectionBudgetPool totalTarget =
      max 100 (Int.toNat ⌊((max 200 totalTarget : ℕ) : ℚ) *
        (((6 : ℕ) : ℚ) / ((10 : ℕ) : ℚ))⌋) ∧
    perSectionWords totalTarget presentCount =
      max 80 (Int.toNat ⌊((sectionBudgetPool totalTarget : ℕ) : ℚ) /
        ((max 1 presentCount : ℕ) : ℚ)⌋) ∧
    overviewTargetNoSections totalTarget =
      max 400 (Int.toNat ⌊(totalTarget : ℚ) * (((8 : ℕ) : ℚ) / ((10 : ℕ) : ℚ))⌋) ∧
    overviewTargetWithSections totalTarget =
      max 200 (Int.toNat ⌊(totalTarget : ℚ) * (((4 : ℕ) : ℚ) / ((10 : ℕ) : ℚ))⌋) := by
  refine ⟨?_, ?_, ?_, ?_⟩
  · rw [intFloor_natMul_div, sectionBudgetPool, totalBudget]
  · rw [intFloor_natDiv, perSectionWords]
  · rw [intFloor_natMul_div, overviewTargetNoSections]
  · rw [intFloor_natMul_div, overviewTargetWithSections]

/-- C7: for fixed `presentSectionCount`, both the per-section target and
the overview target (in either context) are monotone in `totalTarget`. -/
theorem C7_budget_monotonicity (t1 t2 n : Nat) (h : t1 ≤ t2) :
    perSectionWords t1 n ≤ perSectionWords t2 n ∧
    overviewTargetNoSections t1 ≤ overviewTargetNoSections t2 ∧
    overviewTargetWithSections t1 ≤ overviewTargetWithSections t2 := by
  have hpool : sectionBudgetPool t1 ≤ sectionBudgetPool t2 := by
    rw [sectionBudgetPool, sectionBudgetPool, totalBudget, totalBudget]
    have h6 : 6 * max 200 t1 ≤ 6 * max 200 t2 := by omega
    exact max_le_max (le_refl 100) (Nat.div_le_div_right h6)
  refine ⟨?_, ?_, ?_⟩
  · rw [perSectionWords, perSectionWords]
    exact max_le_max (le_refl 80) (Nat.div_le_div_right hpool)
  · rw [overviewTargetNoSections, overviewTargetNoSections]
    exact max_le_max (le_refl 400) (Nat.div_le_div_right (by omega))
  · rw [overviewTargetWithSections, overviewTargetWithSections]
    exact max_le_max (le_refl 200) (Nat.div_le_div_right (by omega))

/-- C7 witness: monotonicity applied at `totalTarget` 300 ≤ 500 with two
present sections. -/
theorem C7_budget_monotonicity_witness :
    perSectionWords 300 2 ≤ perSectionWords 500 2 ∧
    overviewTargetNoSections 300 ≤ overviewTargetNoSections 500 ∧
    overviewTargetWithSections 300 ≤ overviewTargetWithSections 500 :=
  C7_budget_monotonicity 300 500 2 (by decide)

/-- C5: a generation failure in a required phase (section summarization,
overview synthesis, key-finding extraction) whose text carries a `429` or
quota marker is re-signalled with the distinguished
`API Rate Limit Exceeded` prefix, recognizable by the caller; errors
without the marker are re-signalled with the phase's generic message,
which never looks like the rate-limit condition. -/
theorem C5_rate_limit_propagation (gen : Gen) (e : String)
    (hgen : ∀ p, gen p = .error e) (text ctx : String) (tw : Nat)
    (ss : List (String × String)) (effMax : Nat) :
    summarize_chunk gen text ctx tw =
      .error (reSignal "Section summarization failed: " e) ∧
    generate_overview gen text ss effMax =
      .error (reSignal "Overview generation failed: " e) ∧
    extract_key_findings gen text ss =
      .error (reSignal "Key findings extraction failed: " e) ∧
    (is429OrQuota e = true →
      isRateLimitSignal (reSignal "Section summarization failed: " e) = true ∧
      isRateLimitSignal (reSignal "Overview generation failed: " e) = true ∧
      isRateLimitSignal (reSignal "Key findings extraction failed: " e) = true) ∧
    (is429OrQuota e = false →
      isRateLimitSignal (reSignal "Section summarization failed: " e) = false ∧
      isRateLimitSignal (reSignal "Overview generation failed: " e) = false ∧
      isRateLimitSignal (reSignal "Key findings extraction failed: " e) = false) := by
  refine ⟨?_, ?_, ?_, ?_, ?_⟩
  · rw [summarize_chunk, hgen]
  · rw [generate_overview, hgen]
  · rw [extract_key_findings, hgen]
  · intro hm
    refine ⟨?_, ?_, ?_⟩ <;> · rw [reSignal, if_pos hm]; rfl
  · intro hm
    have hneg : ¬ is429OrQuota e = true := by rw [hm]; exact Bool.false_ne_true
    refine ⟨?_, ?_, ?_⟩ <;> · rw [reSignal, if_neg hneg]; rfl

/-- C5 witness: a mocked capability raising `"HTTP 429"` during section
summarization surfaces with the distinguished rate-limit message. -/
theorem C5_rate_limit_witness :
    summarize_chunk (fun _ => .error "HTTP 429") "t" "methods" 100 =
      .error "API Rate Limit Exceeded: HTTP 429" := by
  have h := (C5_rate_limit_propagation (fun _ => .error "HTTP 429") "HTTP 429"
    (fun _ => rfl) "t" "methods" 100 [] 500).1
  rw [h]
  have hre : reSignal "Section summarization failed: " "HTTP 429" =
      "API Rate Limit Exceeded: HTTP 429" := by decide
  rw [hre]

/-- C9: the expansion pass is never fatal: whatever the generation
capability does during the expansion call (raising, or returning text that
strips to empty), `_compile_full_summary` completes; when the expansion
call fails the result is the truncation of the un-expanded draft, and in
every case the result is the truncation of some draft to the target word
count. -/
theorem C9_expansion_never_fatal (gen : Gen) (overview : String)
    (ss : List (String × String)) (kf : List String) (src : String)
    (effMax : Nat) (hEff : 0 < effMax) :
    ((∀ p, ∃ er, gen p = .error er) →
      compile_full_summary gen overview ss kf src effMax =
        truncate_to_words
          (String.intercalate "\n\n" (compiledParts overview ss kf)) effMax) ∧
    ((∀ p t, gen p = .ok t → pyStrip t = "") →
      compile_full_summary gen overview ss kf src effMax =
        truncate_to_words
          (String.intercalate "\n\n" (compiledParts overview ss kf)) effMax) ∧
    (∃ base, compile_full_summary gen overview ss kf src effMax =
        truncate_to_words base effMax) := by
  have hne : effMax ≠ 0 := Nat.pos_iff_ne_zero.mp hEff
  set full := String.intercalate "\n\n" (compiledParts overview ss kf) with hfull
  have hkeep : ∀ h : expand_summary gen src full (max 200 effMax) = full,
      compile_full_summary gen overview ss kf src effMax =
        truncate_to_words full effMax := by
    intro h
    rw [compile_full_summary, ← hfull]
    by_cases hcw : count_words full < 85 * max 200 effMax / 100
    · rw [if_pos hcw, h, if_pos hne]
      by_cases hf : full ≠ ""
      · rw [if_pos hf]
      · rw [if_neg hf]
    · rw [if_neg hcw, if_pos hne]
  refine ⟨?_, ?_, ?_⟩
  · intro hgen
    apply hkeep
    obtain ⟨er, her⟩ := hgen (expandPrompt src full (max 200 effMax))
    rw [expand_summary, her]
  · intro hgen
    apply hkeep
    rw [expand_summary]
    cases hg : gen (expandPrompt src full (max 200 effMax)) with
    | ok t =>
      have := hgen _ t hg
      simp [pyStrOr, this]
    | error er => rfl
  · rw [compile_full_summary, ← hfull, if_pos hne]
    exact ⟨_, rfl⟩

/-- C9 witness: with a capability that always raises, the compile phase
still completes and returns the truncated un-expanded draft. -/
theorem C9_expansion_never_fatal_witness :
    compile_full_summary (fun _ => .error "boom") "O" [] [] "S" 10 =
      truncate_to_words (String.intercalate "\n\n" (compiledParts "O" [] [])) 10 :=
  (C9_expansion_never_fatal (fun _ => .error "boom") "O" [] [] "S" 10
    (by decide)).1 (fun _ => ⟨"boom", rfl⟩)

theorem spanEnd_eq_claimSpanEnd (label : List Char) (depth textLen : Nat)
    (rest : List NumEntry) :
    spanEnd label depth textLen rest = claimSpanEnd label depth textLen rest := by
  induction rest with
  | nil => rfl
  | cons e rest ih =>
    by_cases hdesc : (label ++ ['.']).isPrefixOf e.label
    · rw [spanEnd, if_pos hdesc, ih, claimSpanEnd, claimSpanEnd,
        List.find?_cons_of_neg]
      simp [hdesc]
    · by_cases hdep : e.depth ≤ depth
      · rw [spanEnd, if_neg hdesc, if_pos hdep, claimSpanEnd,
          List.find?_cons_of_pos]
        simp [hdesc, hdep]
      · rw [spanEnd, if_neg hdesc, if_neg hdep, ih, claimSpanEnd, claimSpanEnd,
          List.find?_cons_of_neg]
        simp [hdep]

/-- C6: a numbered span ends at the start of the first subsequent heading
whose depth is at most its own and whose label is not a dotted descendant
of its label (descendants are skipped), or at document end; on a text
with headings `1`, `1.1`, `2`, the `1.1` span lies inside `[start_1,
end_1)` and `end_1 = start_2`. -/
theorem C6_numbered_section_ends (label : List Char) (depth textLen : Nat)
    (rest : List NumEntry) :
    spanEnd label depth textLen rest = claimSpanEnd label depth textLen rest ∧
    detect_numbered_sections "1 Intro\nbody a\n1.1 Sub\nbody b\n2 Methods\nbody c" =
      [("1".toList, 0, 30), ("1.1".toList, 15, 30), ("2".toList, 30, 46)] ∧
    (0 ≤ 15 ∧ (15 : Nat) < 30 ∧ 30 ≤ 30 ∧ (30 : Nat) = 30) := by
  exact ⟨spanEnd_eq_claimSpanEnd label depth textLen rest, by decide, by decide⟩

theorem clipLookup_key (clipped : List (String × Nat × Nat))
    (p : String × Nat × Nat) : (clipLookup clipped p).1 = p.1 := by
  unfold clipLookup
  cases h : clipped.find? (fun q => q.1 == p.1) with
  | none => rfl
  | some q => rfl

theorem applyClip_keys (l : List (String × Nat × Nat)) :
    (applyClip l).map (fun p => p.1) = l.map (fun p => p.1) := by
  unfold applyClip
  rw [List.map_map]
  exact List.map_congr_left (fun p _ => clipLookup_key _ p)

theorem primarySections_key_mem (text : List Char) :
    ∀ p ∈ primarySections text, p.1 ∈ keywordChars.map (fun q => q.1) := by
  intro p hp
  unfold primarySections at hp
  obtain ⟨a, ha, hfa⟩ := List.mem_filterMap.mp hp
  cases hidx : List.findIdx? (fun l => lineAccepts a.2 l) (splitOnNlGo text []) with
  | none => rw [hidx] at hfa; exact absurd hfa (by simp)
  | some idx =>
    rw [hidx] at hfa
    have : p.1 = a.1 := by
      have := Option.some.inj hfa
      rw [← this]
    rw [this]
    exact List.mem_map_of_mem _ ha

theorem detect_sections_keys (s : String) :
    ∀ p ∈ detect_sections s, p.1 ∈ keywordChars.map (fun q => q.1) := by
  intro p hp
  unfold detect_sections at hp
  simp only [] at hp
  by_cases hlen :
      (applyClip (primarySections s.toList)).length < 2
  · rw [if_pos hlen] at hp
    have hk : p.1 ∈ (applyClip ((applyClip (primarySections s.toList)) ++
        (keywordChars.filterMap fun q =>
          if ((applyClip (primarySections s.toList)).find?
              (fun r => r.1 == q.1)).isSome then none
          else
            match fallbackScan q.2 (s.toList.map Char.toLower) with
            | some off => some (q.1, off, s.toList.length)
            | none => none))).map (fun r => r.1) :=
      List.mem_map_of_mem _ hp
    rw [applyClip_keys, List.map_append] at hk
    rcases List.mem_append.mp hk with h1 | h1
    · rw [applyClip_keys] at h1
      obtain ⟨q, hq, hqeq⟩ := List.mem_map.mp h1
      rw [← hqeq]
      exact primarySections_key_mem s.toList q hq
    · obtain ⟨q, hq, hqeq⟩ := List.mem_map.mp h1
      obtain ⟨a, ha, hfa⟩ := List.mem_filterMap.mp hq
      by_cases hin : ((applyClip (primarySections s.toList)).find?
          (fun r => r.1 == a.1)).isSome
      · rw [if_pos hin] at hfa; exact absurd hfa (by simp)
      · rw [if_neg hin] at hfa
        cases hscan : fallbackScan a.2 (s.toList.map Char.toLower) with
        | none => rw [hscan] at hfa; exact absurd hfa (by simp)
        | some off =>
          rw [hscan] at hfa
          have hq1 : q.1 = a.1 := by
            have := Option.some.inj hfa
            rw [← this]
          rw [← hqeq, hq1]
          exact List.mem_map_of_mem _ ha
  · rw [if_neg hlen] at hp
    have hk : p.1 ∈ (applyClip (primarySections s.toList)).map (fun r => r.1) :=
      List.mem_map_of_mem _ hp
    rw [applyClip_keys] at hk
    obtain ⟨q, hq, hqeq⟩ := List.mem_map.mp hk
    rw [← hqeq]
    exact primarySections_key_mem s.toList q hq

theorem detect_sections_no_methodology (s : String) :
    ∀ p ∈ detect_sections s, p.1 ≠ "methodology" := by
  intro p hp heq
  have h := detect_sections_keys s p hp
  rw [heq] at h
  exact absurd h (by decide)

theorem summarize_chunk_ok_ne_empty (gen : Gen) (text ctx : String) (tw : Nat)
    (v : String) (h : summarize_chunk gen text ctx tw = .ok v) : v ≠ "" := by
  unfold summarize_chunk at h
  cases hg : gen (chunkPrompt text ctx tw) with
  | ok t =>
    rw [hg] at h
    have hv := Except.ok.inj h
    rw [← hv]
    unfold pyStrOr
    by_cases hs : pyStrip t = ""
    · rw [if_pos hs]; decide
    · rw [if_neg hs]; exact hs
  | error e => rw [hg] at h; exact absurd h (by simp)

theorem summarizeSectionsGo_mem (gen : Gen) (text : String)
    (sections : List (String × Nat × Nat)) (perWords : Nat) :
    ∀ (names : List String) (acc ss : List (String × String)),
      summarizeSectionsGo gen text sections perWords names acc = .ok ss →
      ∀ p ∈ ss, p ∈ acc ∨
        ((sections.find? (fun q => q.1 == p.1)).isSome ∧ p.2 ≠ "") := by
  intro names
  induction names with
  | nil =>
    intro acc ss h p hp
    unfold summarizeSectionsGo at h
    have : acc = ss := Except.ok.inj h
    rw [this]
    exact Or.inl hp
  | cons name rest ih =>
    intro acc ss h p hp
    unfold summarizeSectionsGo at h
    by_cases hfind : (sections.find? (fun q => q.1 == name)).isSome
    · rw [if_pos hfind] at h
      by_cases hlong : extract_section text name ≠ "" ∧
        100 < (extract_section text name).toList.length
      · rw [if_pos hlong] at h
        cases hc : summarize_chunk gen (extract_section text name) name perWords with
        | ok v =>
          rw [hc] at h
          rcases ih (acc ++ [(name, v)]) ss h p hp with hin | hgood
          · rcases List.mem_append.mp hin with h1 | h1
            · exact Or.inl h1
            · have hpv : p = (name, v) := by simpa using h1
              refine Or.inr ⟨?_, ?_⟩
              · rw [hpv]
                exact hfind
              · rw [hpv]
                exact summarize_chunk_ok_ne_empty gen _ name perWords v hc
          · exact Or.inr hgood
        | error e => rw [hc] at h; exact absurd h (by simp)
      · rw [if_neg hlong] at h
        exact ih acc ss h p hp
    · rw [if_neg hfind] at h
      exact ih acc ss h p hp

theorem summarize_sections_no_methodology (gen : Gen) (text : String)
    (effMax : Nat) (ss : List (String × String))
    (h : summarize_sections gen text (detect_sections text) effMax = .ok ss) :
    alistLookup "methodology" ss = none ∧
    (∀ p ∈ ss, p.2 ≠ "") := by
  unfold summarize_sections at h
  have hmem := summarizeSectionsGo_mem gen text (detect_sections text) _
    prioritySections [] ss h
  constructor
  · unfold alistLookup
    rw [List.find?_eq_none.mpr]
    · rfl
    · intro p hp hbeq
      have hkey : p.1 = "methodology" := by simpa using hbeq
      rcases hmem p hp with hin | ⟨hfind, _⟩
      · exact absurd hin (by simp)
      · obtain ⟨q, hq⟩ := Option.isSome_iff_exists.mp hfind
        have hqmem := List.mem_of_find?_eq_some hq
        have hqpred := List.find?_some hq
        have hq1 : q.1 = p.1 := by simpa using hqpred
        exact detect_sections_no_methodology text q hqmem (by rw [hq1, hkey])
  · intro p hp
    rcases hmem p hp with hin | ⟨_, hne⟩
    · exact absurd hin (by simp)
    · exact hne

/-- C10: `detect_sections` never returns the key `methodology` (such
headings canonicalize to `methods`); hence the `methodology` entry of the
priority list never selects a section, and the `Summary.methodology`
field always equals the `methods` section summary lookup. -/
theorem C10_methodology_is_methods (s text title : String) (gen : Gen)
    (effMax : Nat) :
    (∀ p ∈ detect_sections s, p.1 ≠ "methodology") ∧
    (∀ ss, summarize_sections gen text (detect_sections text) effMax = .ok ss →
      alistLookup "methodology" ss = none ∧
      pyOrOpt (alistLookup "methods" ss) (alistLookup "methodology" ss) =
        alistLookup "methods" ss) ∧
    (∀ summary, summarize gen text title effMax = .ok summary →
      ∃ ss, summarize_sections gen (clean_text text)
          (detect_sections (clean_text text)) effMax = .ok ss ∧
        summary.methodology = alistLookup "methods" ss) := by
  have hcore : ∀ txt ss,
      summarize_sections gen txt (detect_sections txt) effMax = .ok ss →
      alistLookup "methodology" ss = none ∧
      pyOrOpt (alistLookup "methods" ss) (alistLookup "methodology" ss) =
        alistLookup "methods" ss := by
    intro txt ss h
    obtain ⟨hnone, hvals⟩ := summarize_sections_no_methodology gen txt effMax ss h
    refine ⟨hnone, ?_⟩
    rw [hnone]
    unfold pyOrOpt
    cases hm : alistLookup "methods" ss with
    | none => rfl
    | some v =>
      have hne : v ≠ "" := by
        unfold alistLookup at hm
        cases hf : ss.find? (fun p => p.1 == "methods") with
        | none => rw [hf] at hm; exact absurd hm (by simp)
        | some q =>
          rw [hf] at hm
          have : q.2 = v := by simpa using hm
          rw [← this]
          exact hvals q (List.mem_of_find?_eq_some hf)
      simp [hne]
  refine ⟨detect_sections_no_methodology s, hcore text, ?_⟩
  intro summary hsum
  unfold summarize at hsum
  dsimp only [] at hsum
  cases h1 : summarize_sections gen (clean_text text)
      (detect_sections (clean_text text)) effMax with
  | error e => rw [h1] at hsum; exact absurd hsum (by simp)
  | ok ss =>
    rw [h1] at hsum
    dsimp only [] at hsum
    refine ⟨ss, rfl, ?_⟩
    cases h2 : generate_overview gen (clean_text text) ss effMax with
    | error e => rw [h2] at hsum; exact absurd hsum (by simp)
    | ok overview =>
      rw [h2] at hsum
      dsimp only [] at hsum
      cases h3 : extract_key_findings gen (clean_text text) ss with
      | error e => rw [h3] at hsum; exact absurd hsum (by simp)
      | ok keyFindings =>
        rw [h3] at hsum
        dsimp only [] at hsum
        have hs := Except.ok.inj hsum
        rw [← hs]
        exact (hcore (clean_text text) ss h1).2

/-- C10 witness: on a paper with a long Methods section and a mocked
capability, the section-summaries mapping has no methodology entry and
the methodology field expression resolves to the methods summary. -/
theorem C10_methodology_is_methods_witness :
    alistLookup "methodology" [("methods", "MOCK")] = none ∧
    pyOrOpt (alistLookup "methods" [("methods", "MOCK")])
      (alistLookup "methodology" [("methods", "MOCK")]) =
      alistLookup "methods" [("methods", "MOCK")] :=
  (C10_methodology_is_methods "x" "Methods
xxxxxxxxxxxxxxxxxxxxxxxxxxxxxxxxxxxxxxxxxxxxxxxxxxxxxxxxxxxxxxxxxxxxxxxxxxxxxxxxxxxxxxxxxxxxxxxxxxxxxxxxxxxxxxxxxxxxxxxx" "T"
    (fun _ => .ok "MOCK") 500).2.1 [("methods", "MOCK")]
    (by set_option maxRecDepth 10000 in rfl)

theorem insertByStart_mem (x : String × Nat × Nat)
    (l : List (String × Nat × Nat)) (p : String × Nat × Nat) :
    p ∈ insertByStart x l ↔ p = x ∨ p ∈ l := by
  induction l with
  | nil => simp [insertByStart]
  | cons y ys ih =>
    unfold insertByStart
    by_cases h : y.2.1 < x.2.1
    · rw [if_pos h]
      simp only [List.mem_cons, ih]
      tauto
    · rw [if_neg h]
      simp only [List.mem_cons]

theorem sortByStart_mem (l : List (String × Nat × Nat)) (p : String × Nat × Nat) :
    p ∈ sortByStart l ↔ p ∈ l := by
  induction l with
  | nil => simp [sortByStart]
  | cons x xs ih =>
    unfold sortByStart
    rw [insertByStart_mem]
    simp [ih]

theorem insertByStart_pairwise (x : String × Nat × Nat)
    (l : List (String × Nat × Nat))
    (h : List.Pairwise (fun a b => a.2.1 ≤ b.2.1) l) :
    List.Pairwise (fun a b => a.2.1 ≤ b.2.1) (insertByStart x l) := by
  induction l with
  | nil => simp [insertByStart]
  | cons y ys ih =>
    unfold insertByStart
    by_cases hc : y.2.1 < x.2.1
    · rw [if_pos hc]
      rw [List.pairwise_cons] at h ⊢
      refine ⟨?_, ih h.2⟩
      intro b hb
      rw [insertByStart_mem] at hb
      rcases hb with hb | hb
      · rw [hb]; omega
      · exact h.1 b hb
    · rw [if_neg hc]
      rw [List.pairwise_cons]
      refine ⟨?_, h⟩
      intro b hb
      rcases List.mem_cons.mp hb with hb | hb
      · rw [hb]; omega
      · have h1 : y.2.1 ≤ b.2.1 := (List.pairwise_cons.mp h).1 b hb
        omega

theorem sortByStart_pairwise (l : List (String × Nat × Nat)) :
    List.Pairwise (fun a b => a.2.1 ≤ b.2.1) (sortByStart l) := by
  induction l with
  | nil => simp [sortByStart]
  | cons x xs ih => exact insertByStart_pairwise x _ ih

theorem clipEnds_keyStart (l : List (String × Nat × Nat)) :
    (clipEnds l).map (fun p => (p.1, p.2.1)) = l.map (fun p => (p.1, p.2.1)) := by
  induction l with
  | nil => rfl
  | cons x xs ih =>
    cases xs with
    | nil => rfl
    | cons y ys =>
      obtain ⟨n, s, e⟩ := x
      simp only [clipEnds, List.map_cons] at ih ⊢
      rw [ih]

theorem clipEnds_keys (l : List (String × Nat × Nat)) :
    (clipEnds l).map (fun p => p.1) = l.map (fun p => p.1) := by
  have h1 : (clipEnds l).map (fun p => p.1) =
      ((clipEnds l).map (fun p => (p.1, p.2.1))).map Prod.fst := by
    rw [List.map_map]
    rfl
  rw [h1, clipEnds_keyStart, List.map_map]
  rfl

theorem clipEnds_mem_keyStart (l : List (String × Nat × Nat))
    (q : String × Nat × Nat) (hq : q ∈ clipEnds l) :
    ∃ p ∈ l, q.1 = p.1 ∧ q.2.1 = p.2.1 := by
  have h : (q.1, q.2.1) ∈ l.map (fun p => (p.1, p.2.1)) := by
    rw [← clipEnds_keyStart]
    exact List.mem_map_of_mem _ hq
  obtain ⟨p, hp, heq⟩ := List.mem_map.mp h
  have h12 := Prod.mk.inj heq
  exact ⟨p, hp, h12.1.symm, h12.2.symm⟩

theorem clipEnds_good (L : Nat) (l : List (String × Nat × Nat))
    (hpw : List.Pairwise (fun a b => a.2.1 ≤ b.2.1) l)
    (hinv : ∀ p ∈ l, p.2.1 ≤ L ∧ p.2.2 = L) :
    (∀ p ∈ clipEnds l, p.2.1 ≤ p.2.2 ∧ p.2.2 ≤ L) ∧
    List.Pairwise (fun a b => a.2.2 ≤ b.2.1) (clipEnds l) := by
  induction l with
  | nil => exact ⟨by simp [clipEnds], by simp [clipEnds]⟩
  | cons x xs ih =>
    cases xs with
    | nil =>
      refine ⟨?_, by simp [clipEnds]⟩
      intro p hp
      have hp' : p = x := by simpa [clipEnds] using hp
      rw [hp']
      have := hinv x (by simp)
      omega
    | cons y ys =>
      obtain ⟨hx, hpw'⟩ := List.pairwise_cons.mp hpw
      obtain ⟨ihb, ihp⟩ := ih hpw' (fun p hp => hinv p (List.mem_cons_of_mem x hp))
      obtain ⟨n, s, e⟩ := x
      constructor
      · intro p hp
        simp only [clipEnds] at hp
        rcases List.mem_cons.mp hp with hp | hp
        · rw [hp]
          refine ⟨hx y (by simp), (hinv y (by simp)).1⟩
        · exact ihb p hp
      · simp only [clipEnds]
        rw [List.pairwise_cons]
        refine ⟨?_, ihp⟩
        intro b hb
        obtain ⟨q, hq, hk, hs⟩ := clipEnds_mem_keyStart (y :: ys) b hb
        show y.2.1 ≤ b.2.1
        rw [hs]
        rcases List.mem_cons.mp hq with h1 | h1
        · rw [h1]
        · exact (List.pairwise_cons.mp hpw').1 q h1

theorem applyClip_mem_clipEnds (l : List (String × Nat × Nat))
    (p : String × Nat × Nat) (hp : p ∈ applyClip l) :
    p ∈ clipEnds (sortByStart l) := by
  unfold applyClip at hp
  obtain ⟨x, hx, hfx⟩ := List.mem_map.mp hp
  have hkey : x.1 ∈ (clipEnds (sortByStart l)).map (fun q => q.1) := by
    rw [clipEnds_keys]
    exact List.mem_map_of_mem _ ((sortByStart_mem l x).mpr hx)
  obtain ⟨q, hqmem, hq1⟩ := List.mem_map.mp hkey
  have hfind : ((clipEnds (sortByStart l)).find? (fun r => r.1 == x.1)).isSome := by
    rw [List.find?_isSome]
    exact ⟨q, hqmem, by simp [hq1]⟩
  obtain ⟨r, hr⟩ := Option.isSome_iff_exists.mp hfind
  have hrkey : r.1 = x.1 := by simpa using List.find?_some hr
  have hrmem := List.mem_of_find?_eq_some hr
  rw [← hfx]
  unfold clipLookup
  rw [hr, ← hrkey]
  exact hrmem

theorem splitOnNl_sum (cs : List Char) :
    ∀ acc, ((splitOnNlGo cs acc).map (fun l => l.length + 1)).sum =
      cs.length + acc.length + 1 := by
  induction cs with
  | nil => intro acc; simp [splitOnNlGo]
  | cons c rest ih =>
    intro acc
    unfold splitOnNlGo
    by_cases h : c = '\n'
    · rw [if_pos h]
      simp only [List.map_cons, List.sum_cons, ih [], List.length_reverse,
        List.length_cons, List.length_nil]
      omega
    · rw [if_neg h]
      rw [ih (c :: acc)]
      simp only [List.length_cons]
      omega

theorem lineOffsetsGo_le (ls : List (List Char)) :
    ∀ k, ∀ o ∈ lineOffsetsGo ls k,
      o + 1 ≤ k + (ls.map (fun l => l.length + 1)).sum := by
  induction ls with
  | nil => intro k o ho; simp [lineOffsetsGo] at ho
  | cons l ls ih =>
    intro k o ho
    unfold lineOffsetsGo at ho
    rcases List.mem_cons.mp ho with h | h
    · rw [h]
      simp only [List.map_cons, List.sum_cons]
      omega
    · have := ih (k + l.length + 1) o h
      simp only [List.map_cons, List.sum_cons]
      omega

theorem offsets_getD_le (cs : List Char) (idx : Nat) :
    (lineOffsetsGo (splitOnNlGo cs []) 0).getD idx 0 ≤ cs.length := by
  by_cases h : idx < (lineOffsetsGo (splitOnNlGo cs []) 0).length
  · rw [List.getD_eq_getElem _ _ h]
    have hmem := List.getElem_mem h
    have := lineOffsetsGo_le (splitOnNlGo cs []) 0 _ hmem
    rw [splitOnNl_sum cs []] at this
    simp only [List.length_nil] at this
    omega
  · rw [List.getD_eq_default _ _ (by omega)]
    omega

theorem primary_inv (s : String) :
    ∀ p ∈ primarySections s.toList,
      p.2.1 ≤ s.toList.length ∧ p.2.2 = s.toList.length := by
  intro p hp
  unfold primarySections at hp
  obtain ⟨a, ha, hfa⟩ := List.mem_filterMap.mp hp
  cases hidx : List.findIdx? (fun l => lineAccepts a.2 l) (splitOnNlGo s.toList []) with
  | none => rw [hidx] at hfa; exact absurd hfa (by simp)
  | some idx =>
    rw [hidx] at hfa
    have hpe := Option.some.inj hfa
    rw [← hpe]
    exact ⟨offsets_getD_le s.toList idx, rfl⟩

theorem fallbackScanGo_le (ws : List (List Char)) (cs : List Char) :
    ∀ p q, fallbackScanGo ws cs p = some q → q ≤ p + cs.length := by
  induction cs with
  | nil => intro p q h; simp [fallbackScanGo] at h
  | cons c rest ih =>
    intro p q h
    unfold fallbackScanGo at h
    by_cases hc : (c = '\n' && fbMatchAt ws rest) = true
    · rw [if_pos hc] at h
      have := Option.some.inj h
      simp only [List.length_cons]
      omega
    · rw [if_neg hc] at h
      have := ih (p + 1) q h
      simp only [List.length_cons]
      omega

theorem fallbackScan_le (ws : List (List Char)) (cs : List Char) (q : Nat)
    (h : fallbackScan ws cs = some q) : q ≤ cs.length := by
  unfold fallbackScan at h
  by_cases hm : fbMatchAt ws cs = true
  · rw [if_pos hm] at h
    have := Option.some.inj h
    omega
  · rw [if_neg hm] at h
    have := fallbackScanGo_le ws cs 0 q h
    omega

theorem applyClip_length (l : List (String × Nat × Nat)) :
    (applyClip l).length = l.length := by
  unfold applyClip
  exact List.length_map _ _

theorem applyClip_short (l : List (String × Nat × Nat)) (h : l.length < 2) :
    applyClip l = l := by
  match l with
  | [] => rfl
  | [x] =>
    unfold applyClip clipLookup
    have hsort : sortByStart [x] = [x] := rfl
    have hclip : clipEnds [x] = [x] := rfl
    rw [hsort, hclip]
    simp
  | x :: y :: rest =>
    rw [List.length_cons, List.length_cons] at h
    omega

theorem applyClip_good (L : Nat) (X : List (String × Nat × Nat))
    (hinv : ∀ p ∈ X, p.2.1 ≤ L ∧ p.2.2 = L) :
    (∀ p ∈ applyClip X, p.2.1 ≤ p.2.2 ∧ p.2.2 ≤ L) ∧
    (∀ p ∈ applyClip X, ∀ q ∈ applyClip X, p.1 ≠ q.1 →
      p.2.2 ≤ q.2.1 ∨ q.2.2 ≤ p.2.1) := by
  have hsortinv : ∀ p ∈ sortByStart X, p.2.1 ≤ L ∧ p.2.2 = L :=
    fun p hp => hinv p ((sortByStart_mem X p).mp hp)
  obtain ⟨hb, hpw⟩ := clipEnds_good L (sortByStart X) (sortByStart_pairwise X) hsortinv
  constructor
  · intro p hp
    exact hb p (applyClip_mem_clipEnds X p hp)
  · intro p hp q hq hne
    have hp' := applyClip_mem_clipEnds X p hp
    have hq' := applyClip_mem_clipEnds X q hq
    have hpw' : List.Pairwise
        (fun a b : String × Nat × Nat => a.2.2 ≤ b.2.1 ∨ b.2.2 ≤ a.2.1)
        (clipEnds (sortByStart X)) :=
      hpw.imp (fun h => Or.inl h)
    have hsym : Symmetric
        (fun a b : String × Nat × Nat => a.2.2 ≤ b.2.1 ∨ b.2.2 ≤ a.2.1) := by
      intro a b hab
      tauto
    exact hpw'.forall hsym hp' hq' (fun he => hne (congrArg Prod.fst he))

/-- C1 (amended): every span returned by `detect_sections` satisfies
`start ≤ end` (equality is possible when two canonical keys are detected
at the same offset), lies within `[0, len(text)]`, and spans for distinct
canonical keys are pairwise non-overlapping. -/
theorem C1_section_span_invariants (s : String) :
    (∀ p ∈ detect_sections s, p.2.1 ≤ p.2.2 ∧ p.2.2 ≤ s.toList.length) ∧
    (∀ p ∈ detect_sections s, ∀ q ∈ detect_sections s, p.1 ≠ q.1 →
      p.2.2 ≤ q.2.1 ∨ q.2.2 ≤ p.2.1) := by
  unfold detect_sections
  by_cases hlen : (applyClip (primarySections s.toList)).length < 2
  · rw [if_pos hlen]
    apply applyClip_good s.toList.length
    intro p hp
    rcases List.mem_append.mp hp with h1 | h1
    · have hshort : applyClip (primarySections s.toList) = primarySections s.toList :=
        applyClip_short _ (by rw [applyClip_length] at hlen; exact hlen)
      rw [hshort] at h1
      exact primary_inv s p h1
    · obtain ⟨a, ha, hfa⟩ := List.mem_filterMap.mp h1
      by_cases hin : ((applyClip (primarySections s.toList)).find?
          (fun r => r.1 == a.1)).isSome
      · rw [if_pos hin] at hfa
        exact absurd hfa (by simp)
      · rw [if_neg hin] at hfa
        cases hscan : fallbackScan a.2 (s.toList.map Char.toLower) with
        | none => rw [hscan] at hfa; exact absurd hfa (by simp)
        | some off =>
          rw [hscan] at hfa
          have hpe := Option.some.inj hfa
          rw [← hpe]
          refine ⟨?_, rfl⟩
          have := fallbackScan_le a.2 (s.toList.map Char.toLower) off hscan
          rw [List.length_map] at this
          exact this
  · rw [if_neg hlen]
    exact applyClip_good s.toList.length (primarySections s.toList) (primary_inv s)

/-- C1 witness: the invariants at a concrete two-section paper. -/
theorem C1_section_span_invariants_witness :
    ((0 : Nat) ≤ 19 ∧
      19 ≤ ("Abstract\nsome text\nMethods\nstuff here" : String).toList.length) ∧
    ((19 : Nat) ≤ 19 ∨
      ("Abstract\nsome text\nMethods\nstuff here" : String).toList.length ≤ 0) :=
  ⟨(C1_section_span_invariants "Abstract\nsome text\nMethods\nstuff here").1
      ("abstract", 0, 19) (by decide),
    (C1_section_span_invariants "Abstract\nsome text\nMethods\nstuff here").2
      ("abstract", 0, 19) (by decide) ("methods", 19, 37) (by decide) (by decide)⟩

/-- C1 counterexample: on `"Results and Discussion\nbody"` both `results`
and `discussion` are detected at offset 0, and the clip step yields the
empty span `(0, 0)` for `results`, violating strict `start < end`. -/
theorem C1_claim_counterexample :
    ("results", 0, 0) ∈ detect_sections "Results and Discussion\nbody" ∧
    ¬ ((0 : Nat) < 0) := by
  exact ⟨by decide, by decide⟩

/-! ### Lemmas for the normalizer (claim C3) -/

theorem replaceCRLF_cons (c : Char) (rest : List Char)
    (h : (c :: rest).take 2 ≠ ['\r', '\n']) :
    replaceCRLF (c :: rest) = c :: replaceCRLF rest := by
  rw [replaceCRLF.eq_def]
  split
  · next rest2 heq =>
    obtain ⟨hc, hr⟩ := List.cons.inj heq
    exact absurd (by rw [hc, hr]; rfl) h
  · next c2 rest2 hx heq =>
    obtain ⟨hc, hr⟩ := List.cons.inj heq
    rw [hc, hr]
  · next heq => exact absurd heq (by simp)

theorem replaceFi_cons (c : Char) (rest : List Char) (h : c ≠ 'ﬁ') :
    replaceFi (c :: rest) = c :: replaceFi rest := by
  rw [replaceFi.eq_def]
  split
  · next rest2 heq =>
    obtain ⟨hc, hr⟩ := List.cons.inj heq
    exact absurd hc h
  · next c2 rest2 hx heq =>
    obtain ⟨hc, hr⟩ := List.cons.inj heq
    rw [hc, hr]
  · next heq => exact absurd heq (by simp)

theorem replaceFl_cons (c : Char) (rest : List Char) (h : c ≠ 'ﬂ') :
    replaceFl (c :: rest) = c :: replaceFl rest := by
  rw [replaceFl.eq_def]
  split
  · next rest2 heq =>
    obtain ⟨hc, hr⟩ := List.cons.inj heq
    exact absurd hc h
  · next c2 rest2 hx heq =>
    obtain ⟨hc, hr⟩ := List.cons.inj heq
    rw [hc, hr]
  · next heq => exact absurd heq (by simp)

theorem collapse_cons (fuel : Nat) (c : Char) (rest : List Char)
    (h : (c :: rest).take 3 ≠ ['\n', '\n', '\n']) :
    collapseNlF (fuel + 1) (c :: rest) = c :: collapseNlF fuel rest := by
  rw [collapseNlF.eq_def]
  split
  · exact absurd ‹fuel + 1 = 0› (by omega)
  · rename_i fl heqf
    have hf : fl = fuel := by omega
    subst hf
    split
    · next rest3 heq =>
      obtain ⟨hc, hr⟩ := List.cons.inj heq
      exact absurd (by rw [hc, hr]; rfl) h
    · next c2 rest2 hx heq =>
      obtain ⟨hc, hr⟩ := List.cons.inj heq
      rw [hc, hr]
    · next heq => exact absurd heq (by simp)

theorem collapse_head (fuel : Nat) (cs : List Char) :
    (collapseNlF fuel cs).head? = cs.head? := by
  induction fuel, cs using collapseNlF.induct with
  | case1 cs => rfl
  | case2 fuel rest ih => rfl
  | case4 fuel => rfl
  | case3 fuel c rest hne ih =>
    rw [collapseNlF.eq_def]
    split
    · rfl
    · split
      · next rest3 heq =>
        rw [heq]
        rfl
      · next c2 rest2 hx heq =>
        rw [heq]
        rfl
      · next heq => exact absurd heq (by simp)

theorem take1_eq_of_head? {l m : List Char} (h : l.head? = m.head?) :
    l.take 1 = m.take 1 := by
  cases l with
  | nil =>
    cases m with
    | nil => rfl
    | cons b bs => simp at h
  | cons a as =>
    cases m with
    | nil => simp at h
    | cons b bs =>
      have : a = b := by simpa using h
      simp [this]

theorem collapse_take2 (fuel : Nat) (cs : List Char) :
    (collapseNlF fuel cs).take 2 = cs.take 2 := by
  induction fuel generalizing cs with
  | zero => rfl
  | succ fuel ih =>
    cases cs with
    | nil => rfl
    | cons c rest =>
      by_cases htrip : (c :: rest).take 3 = ['\n', '\n', '\n']
      · rcases rest with _ | ⟨c2, rest2⟩
        · simp at htrip
        · rcases rest2 with _ | ⟨c3, rest3⟩
          · simp at htrip
          · have h3 : c = '\n' ∧ c2 = '\n' ∧ c3 = '\n' := by simpa using htrip
            rw [h3.1, h3.2.1, h3.2.2]
            rfl
      · rw [collapse_cons fuel c rest htrip]
        have h1 := collapse_head fuel rest
        have h2 := take1_eq_of_head? h1
        simp only [List.take_cons, List.take_succ_cons] at h2 ⊢
        rw [h2]

theorem mem_replaceCRLF (cs : List Char) (c : Char) (h : c ∈ replaceCRLF cs) :
    c = '\n' ∨ c ∈ cs := by
  induction cs using replaceCRLF.induct with
  | case1 rest ih =>
    rw [replaceCRLF] at h
    rcases List.mem_cons.mp h with h1 | h1
    · exact Or.inl h1
    · rcases ih h1 with h2 | h2
      · exact Or.inl h2
      · exact Or.inr (by simp [h2])
  | case2 c2 rest hne ih =>
    rw [replaceCRLF_cons c2 rest] at h
    · rcases List.mem_cons.mp h with h1 | h1
      · exact Or.inr (by simp [h1])
      · rcases ih h1 with h2 | h2
        · exact Or.inl h2
        · exact Or.inr (by simp [h2])
    · intro hc
      rcases rest with _ | ⟨c3, rest3⟩
      · simp at hc
      · have : c2 = '\r' ∧ c3 = '\n' := by simpa using hc
        exact hne rest3 this.1 (by rw [this.2])
  | case3 => simp [replaceCRLF] at h

theorem mem_replaceCR (cs : List Char) (c : Char) (h : c ∈ replaceCR cs) :
    c = '\n' ∨ c ∈ cs := by
  unfold replaceCR at h
  obtain ⟨d, hd, hde⟩ := List.mem_map.mp h
  by_cases hdr : d = '\r'
  · rw [if_pos hdr] at hde
    exact Or.inl hde.symm
  · rw [if_neg hdr] at hde
    exact Or.inr (hde ▸ hd)

theorem replaceCR_no_cr (cs : List Char) (c : Char) (h : c ∈ replaceCR cs) :
    c ≠ '\r' := by
  unfold replaceCR at h
  obtain ⟨d, hd, hde⟩ := List.mem_map.mp h
  by_cases hdr : d = '\r'
  · rw [if_pos hdr] at hde
    rw [← hde]
    decide
  · rw [if_neg hdr] at hde
    rw [← hde]
    exact hdr

theorem lastNlSplit_subset (w : List Char) (b : List Char)
    (h : lastNlSplit w = some b) : ∀ c ∈ b, c ∈ w := by
  induction w generalizing b with
  | nil => simp [lastNlSplit] at h
  | cons a rest ih =>
    unfold lastNlSplit at h
    cases hr : lastNlSplit rest with
    | some r =>
      rw [hr] at h
      have hb : r = b := Option.some.inj h
      intro c hc
      exact List.mem_cons_of_mem a (ih r hr c (hb ▸ hc))
    | none =>
      rw [hr] at h
      by_cases ha : a = '\n'
      · rw [if_pos ha] at h
        have hb : rest = b := Option.some.inj h
        intro c hc
        exact List.mem_cons_of_mem a (hb ▸ hc)
      · rw [if_neg ha] at h
        exact absurd h (by simp)

theorem mem_matchPageAfterNl (rest r : List Char)
    (h : matchPageAfterNl rest = some r) : ∀ c ∈ r, c ∈ rest := by
  unfold matchPageAfterNl at h
  by_cases hds : (rest.dropWhile pySpace).takeWhile isDigitChar = []
  · rw [if_pos hds] at h
    exact absurd h (by simp)
  · rw [if_neg hds] at h
    set r2 := (rest.dropWhile pySpace).dropWhile isDigitChar with hr2
    cases hnl : lastNlSplit (r2.takeWhile pySpace) with
    | none => rw [hnl] at h; exact absurd h (by simp)
    | some b =>
      rw [hnl] at h
      have hr : b ++ r2.dropWhile pySpace = r := Option.some.inj h
      intro c hc
      rw [← hr] at hc
      have hsub : ∀ d ∈ r2, d ∈ rest := by
        intro d hd
        exact (List.dropWhile_sublist pySpace).subset
          ((List.dropWhile_sublist isDigitChar).subset hd)
      rcases List.mem_append.mp hc with h1 | h1
      · exact hsub c ((List.takeWhile_sublist pySpace).subset
          (lastNlSplit_subset _ b hnl c h1))
      · exact hsub c ((List.dropWhile_sublist pySpace).subset h1)

theorem mem_pageSubF (fuel : Nat) :
    ∀ (cs : List Char) (c : Char), c ∈ pageSubF fuel cs → c = '\n' ∨ c ∈ cs := by
  induction fuel with
  | zero => intro cs c h; exact Or.inr h
  | succ fuel ih =>
    intro cs c h
    cases cs with
    | nil => simp [pageSubF] at h
    | cons c1 rest =>
      by_cases hc1 : c1 = '\n'
      · rw [show pageSubF (fuel + 1) (c1 :: rest) =
            if c1 = '\n' then
              match matchPageAfterNl rest with
              | some rest2 => '\n' :: pageSubF fuel rest2
              | none => c1 :: pageSubF fuel rest
            else c1 :: pageSubF fuel rest from rfl, if_pos hc1] at h
        cases hm : matchPageAfterNl rest with
        | some rest2 =>
          rw [hm] at h
          rcases List.mem_cons.mp h with h1 | h1
          · exact Or.inl h1
          · rcases ih rest2 c h1 with h2 | h2
            · exact Or.inl h2
            · exact Or.inr (List.mem_cons_of_mem c1
                (mem_matchPageAfterNl rest rest2 hm c h2))
        | none =>
          rw [hm] at h
          rcases List.mem_cons.mp h with h1 | h1
          · exact Or.inr (by simp [h1])
          · rcases ih rest c h1 with h2 | h2
            · exact Or.inl h2
            · exact Or.inr (List.mem_cons_of_mem c1 h2)
      · rw [show pageSubF (fuel + 1) (c1 :: rest) =
            if c1 = '\n' then
              match matchPageAfterNl rest with
              | some rest2 => '\n' :: pageSubF fuel rest2
              | none => c1 :: pageSubF fuel rest
            else c1 :: pageSubF fuel rest from rfl, if_neg hc1] at h
        rcases List.mem_cons.mp h with h1 | h1
        · exact Or.inr (by simp [h1])
        · rcases ih rest c h1 with h2 | h2
          · exact Or.inl h2
          · exact Or.inr (List.mem_cons_of_mem c1 h2)

theorem mem_replaceFi (cs : List Char) (c : Char) (h : c ∈ replaceFi cs) :
    c = 'f' ∨ c = 'i' ∨ c ∈ cs := by
  induction cs using replaceFi.induct with
  | case1 rest ih =>
    rw [replaceFi] at h
    rcases List.mem_cons.mp h with h1 | h1
    · exact Or.inl h1
    · rcases List.mem_cons.mp h1 with h2 | h2
      · exact Or.inr (Or.inl h2)
      · rcases ih h2 with h3 | h3 | h3
        · exact Or.inl h3
        · exact Or.inr (Or.inl h3)
        · exact Or.inr (Or.inr (by simp [h3]))
  | case2 c2 rest hne ih =>
    rw [replaceFi_cons c2 rest (fun hc => hne hc)] at h
    rcases List.mem_cons.mp h with h1 | h1
    · exact Or.inr (Or.inr (by simp [h1]))
    · rcases ih h1 with h3 | h3 | h3
      · exact Or.inl h3
      · exact Or.inr (Or.inl h3)
      · exact Or.inr (Or.inr (by simp [h3]))
  | case3 => simp [replaceFi] at h

theorem mem_replaceFl (cs : List Char) (c : Char) (h : c ∈ replaceFl cs) :
    c = 'f' ∨ c = 'l' ∨ c ∈ cs := by
  induction cs using replaceFl.induct with
  | case1 rest ih =>
    rw [replaceFl] at h
    rcases List.mem_cons.mp h with h1 | h1
    · exact Or.inl h1
    · rcases List.mem_cons.mp h1 with h2 | h2
      · exact Or.inr (Or.inl h2)
      · rcases ih h2 with h3 | h3 | h3
        · exact Or.inl h3
        · exact Or.inr (Or.inl h3)
        · exact Or.inr (Or.inr (by simp [h3]))
  | case2 c2 rest hne ih =>
    rw [replaceFl_cons c2 rest (fun hc => hne hc)] at h
    rcases List.mem_cons.mp h with h1 | h1
    · exact Or.inr (Or.inr (by simp [h1]))
    · rcases ih h1 with h3 | h3 | h3
      · exact Or.inl h3
      · exact Or.inr (Or.inl h3)
      · exact Or.inr (Or.inr (by simp [h3]))
  | case3 => simp [replaceFl] at h

theorem mem_collapseNlF (fuel : Nat) (cs : List Char) (c : Char)
    (h : c ∈ collapseNlF fuel cs) : c = '\n' ∨ c ∈ cs := by
  induction fuel, cs using collapseNlF.induct with
  | case1 cs => exact Or.inr h
  | case2 fuel rest ih =>
    rw [show collapseNlF (fuel + 1) ('\n' :: '\n' :: '\n' :: rest) =
      '\n' :: '\n' :: collapseNlF fuel
        (rest.dropWhile (fun c => c = '\n')) from rfl] at h
    rcases List.mem_cons.mp h with h1 | h1
    · exact Or.inl h1
    · rcases List.mem_cons.mp h1 with h2 | h2
      · exact Or.inl h2
      · rcases ih h2 with h3 | h3
        · exact Or.inl h3
        · refine Or.inr ?_
          have := (List.dropWhile_sublist (fun c => c = '\n')).subset h3
          simp [this]
  | case3 fuel c1 rest hne ih =>
    rw [collapse_cons fuel c1 rest] at h
    · rcases List.mem_cons.mp h with h1 | h1
      · exact Or.inr (by simp [h1])
      · rcases ih h1 with h2 | h2
        · exact Or.inl h2
        · exact Or.inr (List.mem_cons_of_mem c1 h2)
    · intro htake
      rcases rest with _ | ⟨c2, rest2⟩
      · simp at htake
      · rcases rest2 with _ | ⟨c3, rest3⟩
        · simp at htake
        · have h3 : c1 = '\n' ∧ c2 = '\n' ∧ c3 = '\n' := by simpa using htake
          exact hne rest3 h3.1 (by rw [h3.2.1, h3.2.2])
  | case4 fuel => simp [collapseNlF] at h

theorem mem_stripChars (cs : List Char) (c : Char) (h : c ∈ stripChars cs) :
    c ∈ cs := by
  unfold stripChars dropTrailingSpace at h
  have h1 := List.mem_reverse.mp h
  have h2 := (List.dropWhile_sublist pySpace).subset h1
  have h3 := List.mem_reverse.mp h2
  exact (List.dropWhile_sublist pySpace).subset h3

theorem replaceCRLF_id (cs : List Char) (h : ∀ c ∈ cs, c ≠ '\r') :
    replaceCRLF cs = cs := by
  induction cs with
  | nil => rfl
  | cons c rest ih =>
    rw [replaceCRLF_cons c rest, ih (fun d hd => h d (List.mem_cons_of_mem c hd))]
    intro htake
    have h2 : c :: rest.take 1 = ['\r', '\n'] := by simpa using htake
    exact h c (by simp) (List.cons.inj h2).1

theorem replaceCR_id (cs : List Char) (h : ∀ c ∈ cs, c ≠ '\r') :
    replaceCR cs = cs := by
  unfold replaceCR
  conv_rhs => rw [← List.map_id cs]
  exact List.map_congr_left (fun c hc => if_neg (h c hc))

theorem matchPageAfterNl_none (rest : List Char)
    (h : ∀ c ∈ rest, isDigitChar c = false) : matchPageAfterNl rest = none := by
  have hcond : (rest.dropWhile pySpace).takeWhile isDigitChar = [] := by
    by_contra hne
    obtain ⟨c, hc⟩ := List.exists_mem_of_ne_nil _ hne
    have hdig := List.mem_takeWhile_imp hc
    have hmem : c ∈ rest := (List.dropWhile_sublist pySpace).subset
      ((List.takeWhile_sublist isDigitChar).subset hc)
    rw [h c hmem] at hdig
    exact absurd hdig (by simp)
  unfold matchPageAfterNl
  rw [if_pos hcond]

theorem pageSubF_id :
    ∀ (fuel : Nat) (cs : List Char), (∀ c ∈ cs, isDigitChar c = false) →
      pageSubF fuel cs = cs := by
  intro fuel
  induction fuel with
  | zero => intro cs h; rfl
  | succ fuel ih =>
    intro cs h
    cases cs with
    | nil => rfl
    | cons c rest =>
      have hrest : ∀ d ∈ rest, isDigitChar d = false :=
        fun d hd => h d (List.mem_cons_of_mem c hd)
      have hstep : pageSubF (fuel + 1) (c :: rest) =
          if c = '\n' then
            match matchPageAfterNl rest with
            | some rest2 => '\n' :: pageSubF fuel rest2
            | none => c :: pageSubF fuel rest
          else c :: pageSubF fuel rest := rfl
      by_cases hc : c = '\n'
      · rw [hstep, if_pos hc, matchPageAfterNl_none rest hrest, ih rest hrest, hc]
      · rw [hstep, if_neg hc, ih rest hrest]

theorem replaceFi_no_fi (cs : List Char) : ∀ c ∈ replaceFi cs, c ≠ 'ﬁ' := by
  induction cs using replaceFi.induct with
  | case1 rest ih =>
    rw [replaceFi]
    intro c hc
    rcases List.mem_cons.mp hc with h1 | h1
    · rw [h1]; decide
    · rcases List.mem_cons.mp h1 with h2 | h2
      · rw [h2]; decide
      · exact ih c h2
  | case2 c2 rest hne ih =>
    rw [replaceFi_cons c2 rest (fun hc => hne hc)]
    intro c hc
    rcases List.mem_cons.mp hc with h1 | h1
    · rw [h1]; exact fun hc2 => hne hc2
    · exact ih c h1
  | case3 => simp [replaceFi]

theorem replaceFl_no_fl (cs : List Char) : ∀ c ∈ replaceFl cs, c ≠ 'ﬂ' := by
  induction cs using replaceFl.induct with
  | case1 rest ih =>
    rw [replaceFl]
    intro c hc
    rcases List.mem_cons.mp hc with h1 | h1
    · rw [h1]; decide
    · rcases List.mem_cons.mp h1 with h2 | h2
      · rw [h2]; decide
      · exact ih c h2
  | case2 c2 rest hne ih =>
    rw [replaceFl_cons c2 rest (fun hc => hne hc)]
    intro c hc
    rcases List.mem_cons.mp hc with h1 | h1
    · rw [h1]; exact fun hc2 => hne hc2
    · exact ih c h1
  | case3 => simp [replaceFl]

theorem replaceFi_id (cs : List Char) (h : ∀ c ∈ cs, c ≠ 'ﬁ') :
    replaceFi cs = cs := by
  induction cs with
  | nil => rfl
  | cons c rest ih =>
    rw [replaceFi_cons c rest (h c (by simp)),
      ih (fun d hd => h d (List.mem_cons_of_mem c hd))]

theorem replaceFl_id (cs : List Char) (h : ∀ c ∈ cs, c ≠ 'ﬂ') :
    replaceFl cs = cs := by
  induction cs with
  | nil => rfl
  | cons c rest ih =>
    rw [replaceFl_cons c rest (h c (by simp)),
      ih (fun d hd => h d (List.mem_cons_of_mem c hd))]

theorem collapse_id :
    ∀ (fuel : Nat) (cs : List Char), ¬ (['\n', '\n', '\n'] <:+: cs) →
      collapseNlF fuel cs = cs := by
  intro fuel
  induction fuel with
  | zero => intro cs h; rfl
  | succ fuel ih =>
    intro cs h
    cases cs with
    | nil => rfl
    | cons c rest =>
      by_cases htake : (c :: rest).take 3 = ['\n', '\n', '\n']
      · exact absurd (htake ▸ ( List.take_prefix 3 (c :: rest)).isInfix) h
      · rw [collapse_cons fuel c rest htake]
        rw [ih rest (fun hinf => h (hinf.trans (List.suffix_cons c rest).isInfix))]

theorem dropWhile_head_false (p : Char → Bool) (l : List Char) :
    l.dropWhile p = [] ∨
    ∃ c rest, l.dropWhile p = c :: rest ∧ p c = false := by
  induction l with
  | nil => exact Or.inl rfl
  | cons c rest ih =>
    by_cases hp : p c
    · rw [List.dropWhile_cons, if_pos hp]
      exact ih
    · refine Or.inr ⟨c, rest, ?_, by simpa using hp⟩
      rw [List.dropWhile_cons, if_neg hp]

theorem dropWhile_dropWhile (p : Char → Bool) (l : List Char) :
    (l.dropWhile p).dropWhile p = l.dropWhile p := by
  rcases dropWhile_head_false p l with h | ⟨c, rest, heq, hc⟩
  · rw [h]; rfl
  · rw [heq, List.dropWhile_cons, hc]
    simp

theorem dropTrailing_prefix_self (cs : List Char) : dropTrailingSpace cs <+: cs := by
  unfold dropTrailingSpace
  have h := List.dropWhile_suffix (l := cs.reverse) pySpace
  have h2 := List.reverse_prefix.mpr h
  rwa [List.reverse_reverse] at h2

theorem stripChars_infix_self (cs : List Char) : stripChars cs <:+: cs :=
  (dropTrailing_prefix_self (cs.dropWhile pySpace)).isInfix.trans
    (List.dropWhile_suffix pySpace).isInfix

theorem prefix_head_eq (l m : List Char) (h : l <+: m) (hne : l ≠ []) :
    l.head? = m.head? := by
  obtain ⟨t, ht⟩ := h
  rw [← ht]
  cases l with
  | nil => exact absurd rfl hne
  | cons c rest => rfl

theorem stripChars_idem (cs : List Char) :
    stripChars (stripChars cs) = stripChars cs := by
  have h1 : (stripChars cs).dropWhile pySpace = stripChars cs := by
    cases hsc : stripChars cs with
    | nil => simp
    | cons c rest =>
      have hpre : dropTrailingSpace (cs.dropWhile pySpace) <+: cs.dropWhile pySpace :=
        dropTrailing_prefix_self _
      have hh : (stripChars cs).head? = (cs.dropWhile pySpace).head? := by
        refine prefix_head_eq _ _ hpre ?_
        show stripChars cs ≠ []
        rw [hsc]
        simp
      rcases dropWhile_head_false pySpace cs with hnil | ⟨c', rest', heq, hc'⟩
      · rw [hnil, hsc] at hh
        simp at hh
      · rw [heq, hsc] at hh
        have hcc : c = c' := by simpa using hh
        rw [List.dropWhile_cons, hcc, hc']
        simp
  have h2 : dropTrailingSpace (stripChars cs) = stripChars cs := by
    show dropTrailingSpace (dropTrailingSpace (cs.dropWhile pySpace)) =
      dropTrailingSpace (cs.dropWhile pySpace)
    unfold dropTrailingSpace
    rw [List.reverse_reverse, dropWhile_dropWhile]
  show dropTrailingSpace ((stripChars cs).dropWhile pySpace) = stripChars cs
  rw [h1, h2]

theorem dropWhile_length_le (p : Char → Bool) (l : List Char) :
    (l.dropWhile p).length ≤ l.length :=
  (List.dropWhile_sublist p).length_le

theorem collapse_noTriple :
    ∀ (fuel : Nat) (cs : List Char), cs.length ≤ fuel →
      ¬ (['\n', '\n', '\n'] <:+: collapseNlF fuel cs) := by
  intro fuel
  induction fuel with
  | zero =>
    intro cs hlen htri
    have hnil : cs = [] := List.length_eq_zero.mp (by omega)
    rw [hnil] at htri
    have := htri.sublist.length_le
    simp [collapseNlF] at this
  | succ fuel ih =>
    intro cs hlen
    cases cs with
    | nil =>
      intro htri
      have := htri.sublist.length_le
      simp [collapseNlF] at this
    | cons c rest =>
      by_cases htake : (c :: rest).take 3 = ['\n', '\n', '\n']
      · rcases rest with _ | ⟨c2, rest2⟩
        · simp at htake
        rcases rest2 with _ | ⟨c3, rest3⟩
        · simp at htake
        have h3 : c = '\n' ∧ c2 = '\n' ∧ c3 = '\n' := by simpa using htake
        obtain ⟨hc, hc2, hc3⟩ := h3
        subst hc
        subst hc2
        subst hc3
        have hstep : collapseNlF (fuel + 1) ('\n' :: '\n' :: '\n' :: rest3) =
            '\n' :: '\n' ::
              collapseNlF fuel (rest3.dropWhile (fun c => c = '\n')) := rfl
        rw [hstep]
        have hXhead : (collapseNlF fuel
            (rest3.dropWhile (fun c => c = '\n'))).head? ≠ some '\n' := by
          rw [collapse_head]
          rcases dropWhile_head_false (fun c => c = '\n') rest3 with
            hnil | ⟨d, drest, heq, hd⟩
          · rw [hnil]
            simp
          · rw [heq]
            intro hdd
            have : d = '\n' := by simpa using hdd
            rw [this] at hd
            simp at hd
        have hXtri : ¬ (['\n', '\n', '\n'] <:+:
            collapseNlF fuel (rest3.dropWhile (fun c => c = '\n'))) := by
          refine ih _ ?_
          have := dropWhile_length_le (fun c => c = '\n') rest3
          simp only [List.length_cons] at hlen
          omega
        intro htri
        rcases List.infix_cons_iff.mp htri with hpre | htri2
        · obtain ⟨t, ht⟩ := hpre
          have hX : '\n' :: t = collapseNlF fuel
              (rest3.dropWhile (fun c => c = '\n')) := by
            simpa using ht
          exact hXhead (by rw [← hX]; rfl)
        rcases List.infix_cons_iff.mp htri2 with hpre | htri3
        · obtain ⟨t, ht⟩ := hpre
          have hX : '\n' :: '\n' :: t = collapseNlF fuel
              (rest3.dropWhile (fun c => c = '\n')) := by
            simpa using ht
          exact hXhead (by rw [← hX]; rfl)
        · exact hXtri htri3
      · rw [collapse_cons fuel c rest htake]
        have hrest : ¬ (['\n', '\n', '\n'] <:+: collapseNlF fuel rest) := by
          refine ih rest ?_
          rw [List.length_cons] at hlen
          omega
        intro htri
        rcases List.infix_cons_iff.mp htri with hpre | htri2
        · obtain ⟨t, ht⟩ := hpre
          have hpair : '\n' = c ∧ '\n' :: '\n' :: t = collapseNlF fuel rest :=
            List.cons.inj (by simpa using ht)
          have h2 := collapse_take2 fuel rest
          rw [← hpair.2] at h2
          apply htake
          rw [show (c :: rest).take 3 = c :: rest.take 2 from rfl, ← hpair.1, ← h2]
          rfl
        · exact hrest htri2

theorem mem_normEol (cs : List Char) (c : Char) (h : c ∈ normEol cs) :
    c = '\n' ∨ c ∈ cs := by
  unfold normEol at h
  rcases mem_replaceCR _ c h with h1 | h1
  · exact Or.inl h1
  · exact mem_replaceCRLF cs c h1

theorem normEol_no_cr (cs : List Char) : ∀ c ∈ normEol cs, c ≠ '\r' :=
  fun c hc => replaceCR_no_cr _ c hc

theorem normEol_id (cs : List Char) (h : ∀ c ∈ cs, c ≠ '\r') :
    normEol cs = cs := by
  unfold normEol
  rw [replaceCRLF_id cs h, replaceCR_id cs h]

theorem mem_pageSub (cs : List Char) (c : Char) (h : c ∈ pageSub cs) :
    c = '\n' ∨ c ∈ cs :=
  mem_pageSubF cs.length cs c h

theorem pageSub_id (cs : List Char) (h : ∀ c ∈ cs, isDigitChar c = false) :
    pageSub cs = cs :=
  pageSubF_id cs.length cs h

theorem mem_ligFix (cs : List Char) (c : Char) (h : c ∈ ligFix cs) :
    c = 'f' ∨ c = 'i' ∨ c = 'l' ∨ c ∈ cs := by
  unfold ligFix at h
  rcases mem_replaceFl _ c h with h1 | h1 | h1
  · exact Or.inl h1
  · exact Or.inr (Or.inr (Or.inl h1))
  · rcases mem_replaceFi _ c h1 with h2 | h2 | h2
    · exact Or.inl h2
    · exact Or.inr (Or.inl h2)
    · exact Or.inr (Or.inr (Or.inr h2))

theorem ligFix_no_fi (cs : List Char) : ∀ c ∈ ligFix cs, c ≠ 'ﬁ' := by
  intro c hc
  unfold ligFix at hc
  rcases mem_replaceFl _ c hc with h1 | h1 | h1
  · rw [h1]; decide
  · rw [h1]; decide
  · exact replaceFi_no_fi cs c h1

theorem ligFix_no_fl (cs : List Char) : ∀ c ∈ ligFix cs, c ≠ 'ﬂ' :=
  fun c hc => replaceFl_no_fl _ c hc

theorem ligFix_id (cs : List Char) (hfi : ∀ c ∈ cs, c ≠ 'ﬁ')
    (hfl : ∀ c ∈ cs, c ≠ 'ﬂ') : ligFix cs = cs := by
  unfold ligFix
  rw [replaceFi_id cs hfi, replaceFl_id cs hfl]

theorem mem_collapseNl (cs : List Char) (c : Char) (h : c ∈ collapseNl cs) :
    c = '\n' ∨ c ∈ cs :=
  mem_collapseNlF cs.length cs c h

theorem collapseNl_id (cs : List Char) (h : ¬ (['\n', '\n', '\n'] <:+: cs)) :
    collapseNl cs = cs :=
  collapse_id cs.length cs h

theorem collapseNl_noTriple (cs : List Char) :
    ¬ (['\n', '\n', '\n'] <:+: collapseNl cs) :=
  collapse_noTriple cs.length cs (le_refl _)

theorem cleanChars_idem (cs : List Char)
    (hdig : ∀ c ∈ cs, isDigitChar c = false) :
    cleanChars (cleanChars cs) = cleanChars cs := by
  have hx : cleanChars cs =
      stripChars (collapseNl (ligFix (pageSub (normEol cs)))) := rfl
  have f_nocr : ∀ c ∈ cleanChars cs, c ≠ '\r' := by
    intro c hc
    rw [hx] at hc
    rcases mem_collapseNl _ c (mem_stripChars _ c hc) with h1 | h1
    · rw [h1]; decide
    rcases mem_ligFix _ c h1 with h2 | h2 | h2 | h2
    · rw [h2]; decide
    · rw [h2]; decide
    · rw [h2]; decide
    rcases mem_pageSub _ c h2 with h3 | h3
    · rw [h3]; decide
    · exact normEol_no_cr cs c h3
  have f_nodig : ∀ c ∈ cleanChars cs, isDigitChar c = false := by
    intro c hc
    rw [hx] at hc
    rcases mem_collapseNl _ c (mem_stripChars _ c hc) with h1 | h1
    · rw [h1]; decide
    rcases mem_ligFix _ c h1 with h2 | h2 | h2 | h2
    · rw [h2]; decide
    · rw [h2]; decide
    · rw [h2]; decide
    rcases mem_pageSub _ c h2 with h3 | h3
    · rw [h3]; decide
    rcases mem_normEol cs c h3 with h4 | h4
    · rw [h4]; decide
    · exact hdig c h4
  have f_nofi : ∀ c ∈ cleanChars cs, c ≠ 'ﬁ' := by
    intro c hc
    rw [hx] at hc
    rcases mem_collapseNl _ c (mem_stripChars _ c hc) with h1 | h1
    · rw [h1]; decide
    · exact ligFix_no_fi _ c h1
  have f_nofl : ∀ c ∈ cleanChars cs, c ≠ 'ﬂ' := by
    intro c hc
    rw [hx] at hc
    rcases mem_collapseNl _ c (mem_stripChars _ c hc) with h1 | h1
    · rw [h1]; decide
    · exact ligFix_no_fl _ c h1
  have f_tri : ¬ (['\n', '\n', '\n'] <:+: cleanChars cs) := by
    intro htri
    rw [hx] at htri
    exact collapseNl_noTriple (ligFix (pageSub (normEol cs)))
      (htri.trans (stripChars_infix_self _))
  have f_strip : stripChars (cleanChars cs) = cleanChars cs := by
    rw [hx]
    exact stripChars_idem _
  show stripChars (collapseNl (ligFix (pageSub (normEol (cleanChars cs))))) =
    cleanChars cs
  rw [normEol_id _ f_nocr, pageSub_id _ f_nodig, ligFix_id _ f_nofi f_nofl,
    collapseNl_id _ f_tri, f_strip]

/-- C3 (amended): `clean_text` is idempotent on digit-free inputs; on
inputs with consecutive page-number-like lines it need not be (the
counterexample), because the single `re.sub` pass over
`\n\s*\d+\s*\n` does not rescan the replacement newline. -/
theorem C3_clean_text_idempotent_digit_free (s : String)
    (h : ∀ c ∈ s.toList, isDigitChar c = false) :
    clean_text (clean_text s) = clean_text s := by
  show String.mk (cleanChars (cleanChars s.toList)) = String.mk (cleanChars s.toList)
  rw [cleanChars_idem s.toList h]

/-- C3 witness: idempotence at a concrete digit-free input. -/
theorem C3_clean_text_idempotent_witness :
    clean_text (clean_text "  a\n\n\n\nb ﬁ ") = clean_text "  a\n\n\n\nb ﬁ " :=
  C3_clean_text_idempotent_digit_free "  a\n\n\n\nb ﬁ " (by decide)

/-- C3 counterexample: `clean_text` is not idempotent in general; with
two consecutive page-number lines the first pass removes only the first
(`"a\n1\n2\nb"` becomes `"a\n2\nb"`), and a second pass removes the
second. -/
theorem C3_claim_counterexample :
    clean_text (clean_text "a\n1\n2\nb") ≠ clean_text "a\n1\n2\nb" ∧
    clean_text "a\n1\n2\nb" = "a\n2\nb" ∧
    clean_text (clean_text "a\n1\n2\nb") = "a\nb" := by
  refine ⟨?_, by decide, by decide⟩
  decide

end SciSum

